import Mathlib

/-!
# Verification of the `save-hoarder` operation-log and diff engine

Shallow embedding of the core subsystems of the repository:

* the operation translator `OperationIter` (`src/hoard/iter/operation.rs`),
* the pair enumerator `AllFilesIter` (`src/hoard/iter/all_files.rs`),
* the log-file name filter and retention policy
  (`src/checkers/history/operation/util.rs`),
* the v2 operation log and the v1 → v2 upgrader
  (`src/checkers/history/operation/v2.rs`).

Rust `HashMap`/`HashSet` values are modelled either as association lists
(where the code iterates over them or inspects their size) or as
finitely-updated functions (where the code only ever inserts and looks up).
Machine integers hold small counts only, so they are modelled as `Nat`.
Filesystem paths are modelled as `String` (or `List String` of components
where the code walks directory trees).

The file is organised as: all definitions first, then all lemmas and
theorems.
-/

namespace SaveHoarder

/-- Relative path inside a pile, shared key between the system tree and the
hoard tree.  Modelled as a plain string; `""` stands for `PathBuf::new()`. -/
abbrev RelPath := String

/-- `Direction` from `src/hoard/mod.rs` (declaration not under `src/`).
Modelled from the spec: the flow of data for an operation, `Backup`
(system → hoard) or `Restore` (hoard → system). -/
inductive Direction where
  | Backup
  | Restore
deriving DecidableEq, Repr

/-- `DiffSource` from `src/hoard/iter` (declaration not under `src/`).
Modelled from the spec: attribution of a change to `Local`, `Remote`,
`Mixed`, or `Unknown` (out-of-band). -/
inductive DiffSource where
  | Local
  | Remote
  | Mixed
  | Unknown
deriving DecidableEq, Repr

/-- `Checksum` from `src/hoard_file.rs` (declaration not under `src/`).
Modelled from the spec: tagged union `{MD5(hex), SHA256(hex)}`; equality is
exact string equality over the hex digest and the algorithm tag is part of
the value. -/
inductive Checksum where
  | MD5 (hex : String)
  | SHA256 (hex : String)
deriving DecidableEq, Repr

/-- `HoardItem`/`HoardFile` from `src/hoard/iter` (declaration not under
`src/`).  Modelled from the spec: one file of one pile, identified by
`(pile_name, relative_path)`.  The `system_checksum`/`hoard_checksum`
methods compute a checksum of the current on-disk contents on demand; here
the two results are carried as snapshot fields (`none` when the file does
not exist on that side). -/
structure HoardItem where
  pileName : Option String
  relPath : RelPath
  systemChecksum : Option Checksum
  hoardChecksum : Option Checksum
deriving DecidableEq, Repr

/-- `ItemOperation` from `src/hoard/iter/operation.rs`. -/
inductive ItemOperation where
  | Create (file : HoardItem)
  | Modify (file : HoardItem)
  | Delete (file : HoardItem)
  | Nothing (file : HoardItem)
deriving DecidableEq, Repr

/-- `HoardFileDiff` from `src/hoard/iter` (declaration not under `src/`).
Modelled from the spec's §4.5 variant list; permissions are carried as the
Unix file mode. -/
inductive HoardFileDiff where
  | BinaryModified (file : HoardItem) (diffSource : DiffSource)
  | TextModified (file : HoardItem) (unifiedDiff : String) (diffSource : DiffSource)
  | PermissionsModified (file : HoardItem) (hoardPerms : Nat) (systemPerms : Nat)
      (diffSource : DiffSource)
  | Created (file : HoardItem) (diffSource : DiffSource)
  | Recreated (file : HoardItem) (diffSource : DiffSource)
  | Deleted (file : HoardItem) (diffSource : DiffSource)
  | Unchanged (file : HoardItem)
deriving DecidableEq, Repr

/-- The body of `OperationIter::next` (`src/hoard/iter/operation.rs`,
lines 39–80): lowers one `HoardFileDiff` to one `ItemOperation` under the
iterator's fixed `Direction`. -/
def operationNext (direction : Direction) (diff : HoardFileDiff) : ItemOperation :=
  match diff with
  | .BinaryModified file _ => .Modify file
  | .TextModified file _ _ => .Modify file
  | .PermissionsModified file _ _ _ => .Modify file
  | .Created file diffSource =>
    match direction, diffSource with
    | _, .Mixed => .Create file
    | .Backup, .Local => .Create file
    | .Backup, .Remote => .Delete file
    | .Backup, .Unknown => .Delete file
    | .Restore, .Remote => .Create file
    | .Restore, .Unknown => .Create file
    | .Restore, .Local => .Delete file
  | .Recreated file diffSource =>
    match direction, diffSource with
    | _, .Mixed => .Create file
    | .Backup, .Local => .Create file
    | .Backup, .Remote => .Delete file
    | .Backup, .Unknown => .Delete file
    | .Restore, .Remote => .Create file
    | .Restore, .Unknown => .Create file
    | .Restore, .Local => .Delete file
  | .Deleted file diffSource =>
    match direction, diffSource with
    | _, .Mixed => .Delete file
    | .Backup, .Local => .Delete file
    | .Restore, .Remote => .Delete file
    | .Restore, .Unknown => .Delete file
    | .Backup, .Remote => .Create file
    | .Backup, .Unknown => .Create file
    | .Restore, .Local => .Create file
  | .Unchanged file => .Nothing file

/-- `OperationIter` as a stream transformer: the iterator holds a fixed
`direction` and applies `operationNext` to every diff produced by the
underlying `HoardDiffIter` stream. -/
def operationIterRun (direction : Direction) (diffs : List HoardFileDiff) :
    List ItemOperation :=
  diffs.map (operationNext direction)

/-! ## Log enumeration and retention (`src/checkers/history/operation/util.rs`) -/

/-- One directory entry as seen by log enumeration: whether the path is a
regular file, and its file name.  (`path.is_file()` and
`path.file_name()` in `file_is_log`.) -/
structure DirEntryInfo where
  isRegularFile : Bool
  name : String
deriving DecidableEq, Repr

/-- `LOG_FILE_REGEX` from `src/checkers/history/operation/util.rs`
(lines 18–21): the anchored pattern
`^[0-9]{4}(_[0-9]{2}){2}-([0-9]{2}_){2}([0-9]{2})\.[0-9]{6}\.log$`,
unrolled into a shape match over the characters of the name. -/
def logFileRegexMatches (s : String) : Bool :=
  match s.data with
  | [y1, y2, y3, y4, c1, m1, m2, c2, d1, d2, c3, h1, h2, c4, n1, n2, c5,
     s1, s2, c6, u1, u2, u3, u4, u5, u6, c7, l1, l2, l3] =>
    y1.isDigit && y2.isDigit && y3.isDigit && y4.isDigit &&
    c1 == '_' && m1.isDigit && m2.isDigit &&
    c2 == '_' && d1.isDigit && d2.isDigit &&
    c3 == '-' && h1.isDigit && h2.isDigit &&
    c4 == '_' && n1.isDigit && n2.isDigit &&
    c5 == '_' && s1.isDigit && s2.isDigit &&
    c6 == '.' && u1.isDigit && u2.isDigit && u3.isDigit && u4.isDigit &&
    u5.isDigit && u6.isDigit &&
    c7 == '.' && l1 == 'l' && l2 == 'o' && l3 == 'g'
  | _ => false

/-- `file_is_log` from `src/checkers/history/operation/util.rs`
(lines 23–35): a path is an operation log iff it is a regular file whose
file name matches `LOG_FILE_REGEX`. -/
def fileIsLog (entry : DirEntryInfo) : Bool :=
  entry.isRegularFile && logFileRegexMatches entry.name

/-- One entry of a `(system_id, hoard_name)` history directory, paired with
the direction recorded inside the log file.  `Operation::from_file`
(not under `src/`) is modelled from the spec as successfully parsing the
log and exposing its direction (`is_backup()`). -/
structure LogDirEntry where
  entry : DirEntryInfo
  direction : Direction
deriving DecidableEq, Repr

/-- Byte-wise (code-point-wise) string comparison, the order `PathBuf`
names are sorted by in `files.sort_unstable()`. -/
def charListLe : List Char → List Char → Bool
  | [], _ => true
  | _ :: _, [] => false
  | a :: as, b :: bs => if a = b then charListLe as bs else decide (a < b)

/-- `a` is lexicographically at most `b`. -/
def nameLe (a b : String) : Bool := charListLe a.data b.data

/-- The sort order used on log files of one hoard directory. -/
def logLe (a b : LogDirEntry) : Prop := nameLe a.entry.name b.entry.name = true

instance : DecidableRel logLe := fun a b =>
  inferInstanceAs (Decidable (nameLe a.entry.name b.entry.name = true))

/-- The sorted list of log files in one hoard directory: filter the entries
through `file_is_log`, then `files.sort_unstable()`
(`src/checkers/history/operation/util.rs`, lines 89–101). -/
def logsIn (entries : List LogDirEntry) : List LogDirEntry :=
  List.insertionSort logLe (entries.filter (fun e => fileIsLog e.entry))

/-- Index of the last element satisfying `p`, mirroring
`files.iter().enumerate().rev().find_map(...)`. -/
def findLastIdx {α : Type} (p : α → Bool) : List α → Option Nat
  | [] => none
  | a :: as =>
    match findLastIdx p as with
    | some i => some (i + 1)
    | none => if p a then some 0 else none

/-- The list of log files `cleanup_operations` deletes from one hoard
directory (`src/checkers/history/operation/util.rs`, lines 87–131): sort
the log files, pop the most recent one, and — when that one is a restore —
also remove the most recent backup from the deletion list. -/
def cleanupDeletionList (entries : List LogDirEntry) : List LogDirEntry :=
  match (logsIn entries).getLast? with
  | none => []
  | some recent =>
    if recent.direction = .Backup then (logsIn entries).dropLast
    else
      match findLastIdx (fun e => e.direction = .Backup) ((logsIn entries).dropLast) with
      | none => (logsIn entries).dropLast
      | some i => ((logsIn entries).dropLast).eraseIdx i

/-- The log files remaining in one hoard directory after
`cleanup_operations` deleted its deletion list. -/
def cleanupRetained (entries : List LogDirEntry) : List LogDirEntry :=
  (logsIn entries).filter (fun e => !((cleanupDeletionList entries).contains e))

/-! ## The deletion fold of `cleanup_operations`
(`src/checkers/history/operation/util.rs`, lines 133–151)

The filesystem is a membership predicate over paths; `outcome` is an
oracle giving, for each path, the result of the OS-level
`fs::remove_file` call (`none` = success, `some e` = the I/O error `e`).
A successful call removes the path from the filesystem. -/

/-- `fs::remove_file` as it acts on the filesystem model. -/
def removeFileModel (outcome : String → Option String) (fs : String → Bool)
    (path : String) : (String → Bool) × Except String Unit :=
  match outcome path with
  | none => (fun q => if q = path then false else fs q, .ok ())
  | some e => (fs, .error e)

/-- One step of the deletion pipeline
`.map(|path| fs::remove_file(path)).fold(Ok((0, ())), ...)`.  The `map`
iterator is lazy, so `fs::remove_file` runs for the current path when the
fold pulls the next item — before (and regardless of how) the fold closure
combines it with the accumulator. -/
def cleanupDeleteStep (outcome : String → Option String)
    (st : (String → Bool) × Except (Nat × String) Nat) (path : String) :
    (String → Bool) × Except (Nat × String) Nat :=
  let removed := removeFileModel outcome st.1 path
  let acc :=
    match st.2 with
    | .error e => .error e
    | .ok count =>
      match removed.2 with
      | .ok _ => .ok (count + 1)
      | .error err => .error (count, err)
  (removed.1, acc)

/-- The deletion phase of `cleanup_operations`, run over the flattened
list of paths to delete: returns the final filesystem state and either the
number of files deleted or the first error paired with the running count. -/
def cleanupDeleteRun (outcome : String → Option String) (paths : List String)
    (fs : String → Bool) : (String → Bool) × Except (Nat × String) Nat :=
  paths.foldl (cleanupDeleteStep outcome) (fs, Except.ok 0)

/-- `cleanup_operations` end to end on the deletion side: the per-system,
per-hoard deletion lists are collected, flattened
(`Vec<Vec<Vec<PathBuf>>>` → iterator), and each file is removed. -/
def cleanupOperationsRun (outcome : String → Option String)
    (systems : List (List (List LogDirEntry))) (fs : String → Bool) :
    (String → Bool) × Except (Nat × String) Nat :=
  cleanupDeleteRun outcome
    (((systems.map (fun hoards =>
        hoards.map (fun d => (cleanupDeletionList d).map (fun e => e.entry.name)))).flatten).flatten)
    fs

/-! ## Operation log v2 (`src/checkers/history/operation/v2.rs`) -/

/-- v2 `Pile` (`v2.rs`, lines 337–343): four maps keyed by relative path.
The `HashMap`/`HashSet` fields are modelled as finitely-updated functions,
since the code only ever inserts and looks up entries. -/
structure PileV2 where
  created : RelPath → Option Checksum
  modified : RelPath → Option Checksum
  deleted : RelPath → Bool
  unmodified : RelPath → Option Checksum

/-- `Pile::default()`: all four collections empty. -/
def PileV2.defaultPile : PileV2 :=
  ⟨fun _ => none, fun _ => none, fun _ => false, fun _ => none⟩

/-- v2 `Hoard` (`v2.rs`, lines 213–219): `Anonymous(Pile)` or
`Named(HashMap<String, Pile>)` (as an association list, since the code
checks its size and iterates it). -/
inductive HoardV2 where
  | Anonymous (pile : PileV2)
  | Named (piles : List (String × PileV2))

/-- The piles contained in a v2 `Hoard`. -/
def HoardV2.piles : HoardV2 → List PileV2
  | .Anonymous pile => [pile]
  | .Named piles => piles.map (fun kv => kv.2)

/-- v2 `OperationV2` (`v2.rs`, lines 29–43).  `timestamp`
(`OffsetDateTime`) is an opaque instant, modelled as `Int` microseconds;
`hoardsRoot` is the `#[serde(skip, default)]` `hoards_root: PathBuf`
field, with `""` standing for `PathBuf::new()`.  The derived `PartialEq`
compares all five fields, `hoards_root` included. -/
structure OperationV2 where
  timestamp : Int
  direction : Direction
  hoard : String
  files : HoardV2
  hoardsRoot : String

/-- The serialized form of a v2 log: exactly the non-skipped fields, in
the §6 schema `{timestamp, direction, hoard, files}`.  The JSON codec
itself is out of scope per the spec (§1) and is taken to round-trip each
field faithfully (the `serde_test` tokens in `v2.rs` confirm this for
`Checksum`); `hoards_root` is `#[serde(skip, default)]` and therefore has
no wire representation. -/
structure V2Wire where
  timestamp : Int
  direction : Direction
  hoard : String
  files : HoardV2

/-- Serialization of a v2 log: emit the four non-skipped fields. -/
def serializeV2 (op : OperationV2) : V2Wire :=
  ⟨op.timestamp, op.direction, op.hoard, op.files⟩

/-- Deserialization of a v2 log: restore the four wire fields; the skipped
`hoards_root` field takes its `Default::default()` value
(`PathBuf::new()`). -/
def deserializeV2 (w : V2Wire) : OperationV2 :=
  ⟨w.timestamp, w.direction, w.hoard, w.files, ""⟩

/-! ## The v1 → v2 upgrader (`OperationV2::from_v1`, `v2.rs` lines 71–164) -/

/-- v1 `Pile` (`src/checkers/history/operation/v1.rs`, not under `src/`).
Modelled from the spec §4.8: a map `RelativePath → Checksum`-hex-string,
as an association list. -/
abbrev PileV1 := List (RelPath × String)

/-- v1 `Hoard`: anonymous pile or named piles.  Modelled from the spec
§4.8 and the `v1::Hoard::{Anonymous, Named}` constructors used by the
`v2.rs` unit tests. -/
inductive HoardV1 where
  | Anonymous (pile : PileV1)
  | Named (piles : List (String × PileV1))

/-- v1 `OperationV1`.  Modelled from the spec §4.8 (v1.rs is not under
`src/`): `(timestamp, is_backup, hoard_name, files)`; the `v2.rs` unit
tests exhibit exactly these four fields. -/
structure OperationV1 where
  timestamp : Int
  isBackup : Bool
  hoardName : String
  hoard : HoardV1

/-- `OperationImpl::direction()` for v1: `is_backup` selects `Backup`,
otherwise `Restore` (modelled from the spec; confirmed by the v2.rs unit
tests pairing `is_backup: true` with `Direction::Backup`). -/
def OperationV1.direction (op : OperationV1) : Direction :=
  if op.isBackup then .Backup else .Restore

/-- `all_files_with_checksums()` on a v1 operation: every
`(pile_name, relative_path, checksum)` it recorded.  v1 stored hex
strings; they surface as `Checksum::MD5` values (as the `v2.rs` unit
tests show).  Every v1 entry carries a checksum
(`.expect("v1 Operation only stored files with checksums")`). -/
def OperationV1.allFilesWithChecksums (op : OperationV1) :
    List (Option String × RelPath × Checksum) :=
  match op.hoard with
  | .Anonymous pile => pile.map (fun kv => (none, kv.1, Checksum.MD5 kv.2))
  | .Named piles =>
    (piles.map (fun np =>
      np.2.map (fun kv => (some np.1, kv.1, Checksum.MD5 kv.2)))).flatten

/-- Key identifying one file across piles: `(pile_name, relative_path)`. -/
abbrev PileKey := Option String × RelPath

/-- The upgrader's carry state: `file_checksums` (outer `none` = the key
was never seen; `some none` = seen but deleted) and `file_set` (the
presence set of the immediately preceding v1 log). -/
structure UpgradeCarry where
  fileChecksums : PileKey → Option (Option Checksum)
  fileSet : List PileKey

/-- Association-list model of `HashMap::get`. -/
def mapGet {κ β : Type} [BEq κ] (l : List (κ × β)) (k : κ) : Option β :=
  (l.find? (fun kv => kv.1 == k)).map (fun kv => kv.2)

/-- `if !map.contains_key(&k) { map.insert(k, v); }` — the get-or-insert
idiom used throughout `v2.rs`. -/
def mapInsertIfAbsent {κ β : Type} [BEq κ] (l : List (κ × β)) (k : κ) (v : β) :
    List (κ × β) :=
  if (l.find? (fun kv => kv.1 == k)).isSome then l else l ++ [(k, v)]

/-- `*map.get_mut(&k).unwrap() = ...` — update the value stored under a
(present) key. -/
def mapAdjust {κ β : Type} [BEq κ] (l : List (κ × β)) (k : κ) (f : β → β) :
    List (κ × β) :=
  l.map (fun kv => if kv.1 == k then (kv.1, f kv.2) else kv)

/-- `from_v1` lines 87–92: fetch the pile for `pile_name`, inserting
`Pile::default()` first if absent. -/
def getOrCreatePile (files : List (Option String × PileV2))
    (name : Option String) : List (Option String × PileV2) :=
  mapInsertIfAbsent files name PileV2.defaultPile

/-- Mutate the pile stored under `name` in place. -/
def modifyPile (files : List (Option String × PileV2)) (name : Option String)
    (f : PileV2 → PileV2) : List (Option String × PileV2) :=
  mapAdjust files name f

/-- `files.remove(&None)` / map lookup. -/
def lookupPile (files : List (Option String × PileV2)) (name : Option String) :
    Option PileV2 :=
  mapGet files name

/-- The running state of the `from_v1` entry loop: `files`, the borrowed
`file_checksums`, and `these_files`. -/
structure FromV1Loop where
  files : List (Option String × PileV2)
  fileChecksums : PileKey → Option (Option Checksum)
  theseFiles : List PileKey

/-- One iteration of the `from_v1` entry loop (`v2.rs`, lines 80–118):
classify the entry as created (unseen), created/recreated (previously
`None`), unmodified (previously equal) or modified (previously
different); then record the new checksum and mark the key as present. -/
def fromV1Step (st : FromV1Loop) (info : Option String × RelPath × Checksum) :
    FromV1Loop :=
  match info with
  | (pileName, relativePath, checksum) =>
    let files := getOrCreatePile st.files pileName
    let files :=
      match st.fileChecksums (pileName, relativePath) with
      | some none =>
        modifyPile files pileName (fun pile =>
          { pile with created :=
              fun r => if r = relativePath then some checksum else pile.created r })
      | some (some oldChecksum) =>
        if oldChecksum = checksum then
          modifyPile files pileName (fun pile =>
            { pile with unmodified :=
                fun r => if r = relativePath then some checksum else pile.unmodified r })
        else
          modifyPile files pileName (fun pile =>
            { pile with modified :=
                fun r => if r = relativePath then some checksum else pile.modified r })
      | none =>
        modifyPile files pileName (fun pile =>
          { pile with created :=
              fun r => if r = relativePath then some checksum else pile.created r })
    { files := files
      fileChecksums := fun k =>
        if k = (pileName, relativePath) then some (some checksum)
        else st.fileChecksums k
      theseFiles := st.theseFiles ++ [(pileName, relativePath)] }

/-- One step of grouping the deleted keys by pile name (`from_v1`,
lines 120–128): get-or-insert an empty set, then insert the path. -/
def groupStep (acc : List (Option String × List RelPath)) (kv : PileKey) :
    List (Option String × List RelPath) :=
  mapAdjust (mapInsertIfAbsent acc kv.1 []) kv.1 (fun s => s ++ [kv.2])

/-- `from_v1` lines 120–128: group the deleted keys
(`file_set.difference(&these_files)`) by pile name. -/
def groupDeleted (dels : List PileKey) : List (Option String × List RelPath) :=
  dels.foldl groupStep []

/-- `from_v1` lines 132–137: store one pile's deleted set
(`files.get_mut(pile_name).unwrap().deleted = deleted`, creating the pile
first if absent). -/
def deletedApply (files : List (Option String × PileV2))
    (g : Option String × List RelPath) : List (Option String × PileV2) :=
  modifyPile (getOrCreatePile files g.1) g.1 (fun pile =>
    { pile with deleted := fun r => g.2.contains r })

/-- The `from_v1` entry loop (`v2.rs`, lines 80–118), run from an empty
pile map and empty `these_files` over all entries of the v1 log. -/
def fromV1LoopRun (carry : UpgradeCarry) (oldV1 : OperationV1) : FromV1Loop :=
  oldV1.allFilesWithChecksums.foldl fromV1Step ⟨[], carry.fileChecksums, []⟩

/-- `from_v1` line 120: `file_set.difference(&these_files)` — the carried
presence keys not seen in this log. -/
def fromV1DeletedKeys (carry : UpgradeCarry) (oldV1 : OperationV1) :
    List PileKey :=
  carry.fileSet.filter
    (fun k => !((fromV1LoopRun carry oldV1).theseFiles.contains k))

/-- `from_v1` lines 120–137: the pile map after the deleted sets are
grouped by pile and written over the loop's piles. -/
def fromV1Files (carry : UpgradeCarry) (oldV1 : OperationV1) :
    List (Option String × PileV2) :=
  (groupDeleted (fromV1DeletedKeys carry oldV1)).foldl deletedApply
    (fromV1LoopRun carry oldV1).files

/-- `OperationV2::from_v1` (`v2.rs`, lines 71–164): fold the v1 entries
through the classification loop, derive the deleted sets from the carried
presence set, overwrite each affected pile's `deleted` field, and package
the result preserving the anonymous/named shape (an anonymous hoard with
no pile falls back to a single `deleted` entry for the empty relative
path).  Returns the new v2 operation together with the updated carry
state. -/
def fromV1 (carry : UpgradeCarry) (oldV1 : OperationV1) :
    OperationV2 × UpgradeCarry :=
  let files := fromV1Files carry oldV1
  let filesHoard :=
    match oldV1.hoard with
    | .Anonymous _ =>
      HoardV2.Anonymous ((lookupPile files none).getD
        { PileV2.defaultPile with deleted := fun r => r == "" })
    | .Named _ =>
      HoardV2.Named (files.filterMap (fun kv => kv.1.map (fun name => (name, kv.2))))
  (⟨oldV1.timestamp, oldV1.direction, oldV1.hoardName, filesHoard, ""⟩,
   ⟨(fromV1LoopRun carry oldV1).fileChecksums,
    (fromV1LoopRun carry oldV1).theseFiles⟩)

/-! ## `Hoard::new` (`v2.rs`, lines 257–326) -/

/-- Errors of the v2 module that matter here: `require_checksum` turns a
missing checksum into `Error::IO(NotFound, ...)`. -/
inductive OpV2Error where
  | ioNotFound (path : RelPath)
deriving DecidableEq, Repr

/-- `Hoard::require_checksum` (`v2.rs`, lines 233–240). -/
def requireChecksum (checksum : Option Checksum) (path : RelPath) :
    Except OpV2Error Checksum :=
  match checksum with
  | some c => .ok c
  | none => .error (.ioNotFound path)

/-- The checksum side selected by `Hoard::new` for `Create`/`Modify`
operations: system-side under `Backup`, hoard-side under `Restore`. -/
def directionChecksum (direction : Direction) (f : HoardItem) : Option Checksum :=
  match direction with
  | .Backup => f.systemChecksum
  | .Restore => f.hoardChecksum

/-- `Hoard::get_or_create_pile` keys piles by `pile_name.unwrap_or("")`
(`v2.rs`, lines 222–231). -/
def pileMapKey (pileName : Option String) : String := pileName.getD ""

/-- `Hoard::get_or_create_pile`, part 1: insert a default pile if the key
is absent. -/
def getOrCreatePileS (acc : List (String × PileV2)) (pileName : Option String) :
    List (String × PileV2) :=
  mapInsertIfAbsent acc (pileMapKey pileName) PileV2.defaultPile

/-- `Hoard::get_or_create_pile`, part 2: mutate the pile under the key. -/
def modifyPileS (acc : List (String × PileV2)) (pileName : Option String)
    (f : PileV2 → PileV2) : List (String × PileV2) :=
  mapAdjust acc (pileMapKey pileName) f

/-- Lookup in the string-keyed pile map (`inner.contains_key("")` /
`inner.remove("")`). -/
def lookupPileS (acc : List (String × PileV2)) (key : String) : Option PileV2 :=
  mapGet acc key

/-- The fold closure of `Hoard::new` (`v2.rs`, lines 264–319): record each
`ItemOperation` into the accumulated pile map.  `Create`/`Modify` record
the system-side checksum under `Backup` and the hoard-side checksum under
`Restore`; `Delete` records no checksum; `Nothing` records the system-side
checksum in `unmodified` regardless of direction.  A missing checksum is a
`require_checksum` error. -/
def hoardNewStep (direction : Direction) (acc : List (String × PileV2))
    (op : ItemOperation) : Except OpV2Error (List (String × PileV2)) :=
  match op with
  | .Create file => do
    let checksum ←
      match direction with
      | .Backup => requireChecksum file.systemChecksum file.relPath
      | .Restore => requireChecksum file.hoardChecksum file.relPath
    .ok (modifyPileS (getOrCreatePileS acc file.pileName) file.pileName (fun pile =>
      { pile with created :=
          fun r => if r = file.relPath then some checksum else pile.created r }))
  | .Modify file => do
    let checksum ←
      match direction with
      | .Backup => requireChecksum file.systemChecksum file.relPath
      | .Restore => requireChecksum file.hoardChecksum file.relPath
    .ok (modifyPileS (getOrCreatePileS acc file.pileName) file.pileName (fun pile =>
      { pile with modified :=
          fun r => if r = file.relPath then some checksum else pile.modified r }))
  | .Delete file =>
    .ok (modifyPileS (getOrCreatePileS acc file.pileName) file.pileName (fun pile =>
      { pile with deleted :=
          fun r => if r = file.relPath then true else pile.deleted r }))
  | .Nothing file => do
    let checksum ← requireChecksum file.systemChecksum file.relPath
    .ok (modifyPileS (getOrCreatePileS acc file.pileName) file.pileName (fun pile =>
      { pile with unmodified :=
          fun r => if r = file.relPath then some checksum else pile.unmodified r }))

/-- The fold of `Hoard::new` over the `OperationIter` stream. -/
def hoardNewFold (direction : Direction) (ops : List ItemOperation) :
    Except OpV2Error (List (String × PileV2)) :=
  ops.foldlM (hoardNewStep direction) []

/-- `Hoard::new` (`v2.rs`, lines 257–326): fold the operation stream, then
package as `Anonymous` exactly when the map holds the single key `""`,
else as `Named`. -/
def hoardNew (direction : Direction) (ops : List ItemOperation) :
    Except OpV2Error HoardV2 :=
  (hoardNewFold direction ops).map (fun inner =>
    if inner.length == 1 && (lookupPileS inner "").isSome then
      HoardV2.Anonymous ((lookupPileS inner "").getD PileV2.defaultPile)
    else HoardV2.Named inner)

/-- The `HoardItem` carried by an operation. -/
def ItemOperation.opFile : ItemOperation → HoardItem
  | .Create f => f
  | .Modify f => f
  | .Delete f => f
  | .Nothing f => f

/-- The constructor tag of an operation. -/
inductive OpKind where
  | create
  | modify
  | delete
  | nothing
deriving DecidableEq, Repr

/-- The tag of an `ItemOperation`. -/
def ItemOperation.kind : ItemOperation → OpKind
  | .Create _ => .create
  | .Modify _ => .modify
  | .Delete _ => .delete
  | .Nothing _ => .nothing

/-- The `(pile_name, relative_path)` key of an operation's file. -/
def opFileKey (op : ItemOperation) : PileKey :=
  (op.opFile.pileName, op.opFile.relPath)

/-- The `(pile-map key, relative_path)` pair an operation writes to in the
`Hoard::new` accumulator (pile names are keyed through
`pile_name.unwrap_or("")`). -/
def opMapKey (op : ItemOperation) : String × RelPath :=
  (pileMapKey op.opFile.pileName, op.opFile.relPath)

/-- Access the pile stored under a given string pile key in a packaged v2
`Hoard` (the `Anonymous` constructor holds the pile keyed `""`). -/
def HoardV2.pileByKey : HoardV2 → String → Option PileV2
  | .Anonymous pile, key => if key = "" then some pile else none
  | .Named piles, key => lookupPileS piles key

/-- Pairwise disjointness of the four key sets of a v2 pile. -/
def PileV2.DisjointKeys (p : PileV2) : Prop :=
  ∀ r : RelPath,
    ((p.created r).isSome →
      p.modified r = none ∧ p.unmodified r = none ∧ p.deleted r = false) ∧
    ((p.modified r).isSome → p.unmodified r = none ∧ p.deleted r = false) ∧
    ((p.unmodified r).isSome → p.deleted r = false)

/-- The kind of the (first) operation of a stream writing to a given
`(pile key, relative path)` slot — proof vocabulary for the `Hoard::new`
fold invariant. -/
def kindAt (ops : List ItemOperation) (k : String × RelPath) : Option OpKind :=
  (ops.find? (fun op => decide (opMapKey op = k))).map ItemOperation.kind

/-- Invariant of the `Hoard::new` fold: every entry recorded in the
accumulator was put there by an operation of the matching kind. -/
def HoardNewInv (ops : List ItemOperation) (acc : List (String × PileV2)) : Prop :=
  ∀ key pile, lookupPileS acc key = some pile → ∀ r,
    ((pile.created r).isSome → kindAt ops (key, r) = some .create) ∧
    ((pile.modified r).isSome → kindAt ops (key, r) = some .modify) ∧
    ((pile.unmodified r).isSome → kindAt ops (key, r) = some .nothing) ∧
    (pile.deleted r = true → kindAt ops (key, r) = some .delete)

/-- Invariant of the `from_v1` entry loop: in every accumulated pile the
`created`/`modified`/`unmodified` maps are pairwise disjoint, `deleted` is
still empty, and every recorded path was marked present in
`these_files`. -/
def FromV1Inv (st : FromV1Loop) : Prop :=
  ∀ name pile, lookupPile st.files name = some pile → ∀ r,
    ((pile.created r).isSome → pile.modified r = none ∧ pile.unmodified r = none) ∧
    ((pile.modified r).isSome → pile.unmodified r = none) ∧
    pile.deleted r = false ∧
    (((pile.created r).isSome ∨ (pile.modified r).isSome ∨
        (pile.unmodified r).isSome) → (name, r) ∈ st.theseFiles)

/-! ## The pair enumerator (`AllFilesIter`, `all_files.rs`) -/

/-- A filesystem tree: a path is a file or a directory with named
children.  `AllFilesIter` walks two such trees (the system side and the
hoard side) per pile root. -/
inductive FsNode where
  | file
  | dir (children : List (String × FsNode))

/-- The node of a tree at a relative path (a list of path components),
`none` when the path does not exist on that side. -/
def findNode : List String → FsNode → Option FsNode
  | [], t => some t
  | _ :: _, .file => none
  | c :: rest, .dir cs =>
    match mapGet cs c with
    | some child => findNode rest child
    | none => none

/-- One enumeration root, as seeded by `AllFilesIter::new` (`all_files.rs`
lines 41–98): the pile's name, the filesystem subtrees under its
`system_prefix` and `hoard_prefix`, and the pile's filters as a `keep`
predicate over the relative path (`Filters::keep(system_prefix,
system_path)` depends only on the path relative to the prefix; `filters.rs`
is not under `src/`, so filters are modelled from the spec §4.3 as an
opaque predicate). -/
structure AFRoot where
  pileName : Option String
  sys : FsNode
  hoard : FsNode
  keep : List String → Bool

/-- `RootPathItem` (`all_files.rs` lines 8–12) / the `HoardFile` it
carries: a root plus the `relative_path`. -/
structure AFItem where
  root : AFRoot
  rel : List String

/-- `HoardFile::is_file` (`hoard_file.rs` is not under `src/`; modelled
from the spec §4.4's classification of a popped item as file or
directory): the path is a regular file on the system side or on the hoard
side. -/
def afIsFile (item : AFItem) : Bool :=
  (match findNode item.rel item.root.sys with
   | some .file => true
   | _ => false) ||
  (match findNode item.rel item.root.hoard with
   | some .file => true
   | _ => false)

/-- `HoardFile::is_dir` (spec-modelled like `afIsFile`): a directory on
either side. -/
def afIsDir (item : AFItem) : Bool :=
  (match findNode item.rel item.root.sys with
   | some (.dir _) => true
   | _ => false) ||
  (match findNode item.rel item.root.hoard with
   | some (.dir _) => true
   | _ => false)

/-- `RootPathItem::keep` (`all_files.rs` lines 15–21):
`(is_file || is_dir) && filters.keep(...)`. -/
def afKeep (item : AFItem) : Bool :=
  (afIsFile item || afIsDir item) && item.root.keep item.rel

/-- `fs::read_dir` on one side (`ensure_dir_entries`, lines 133–162): the
child names of the directory at `rel`; a missing path reads as no entries
(`NotFound` → `None`).  A non-`NotFound` `read_dir` failure cannot come
from the tree shape: `read_dir` runs only after `is_file` returned false,
so neither side holds a file at `rel`; only real I/O faults (permissions)
remain, and those (spec §4.4 Failure, surfaced as `Err` stream items) are
out of scope here. -/
def afChildNames (t : FsNode) (rel : List String) : List String :=
  match findNode rel t with
  | some (.dir cs) => cs.map (fun kv => kv.1)
  | _ => []

/-- `AllFilesIter`'s state (`all_files.rs` lines 32–38): the work stack
(head = top), the two drained-in-order direntry iterators of the current
directory, and `current_root`. -/
structure AFState where
  rootPaths : List AFItem
  sysEntries : List String
  hoardEntries : List String
  current : Option AFItem

/-- The collecting run of `AllFilesIter::next` (`all_files.rs` lines
174–277): one fuel unit per loop iteration.  While either direntry
iterator holds entries, drain the system side then the hoard side
(lines 187–275): each child extends `current`'s relative path by its
basename; a kept file is yielded, a kept directory is pushed.  With both
iterators empty, pop the stack (`ensure_dir_entries`, lines 119–171): a
kept file is yielded, a kept directory's two sides are read into the
iterators and it becomes `current_root`.  An empty stack ends the
stream.  I/O-error items (spec §4.4 Failure) are real I/O faults only
(see `afChildNames`) and are not modelled. -/
def afRun : Nat → AFState → List AFItem
  | 0, _ => []
  | fuel+1, s =>
    match s.sysEntries with
    | name :: rest =>
      match s.current with
      | none => []
      | some cur =>
        let child : AFItem := ⟨cur.root, cur.rel ++ [name]⟩
        if afKeep child then
          if afIsFile child then
            child :: afRun fuel { s with sysEntries := rest }
          else if afIsDir child then
            afRun fuel { s with
              sysEntries := rest
              rootPaths := child :: s.rootPaths }
          else afRun fuel { s with sysEntries := rest }
        else afRun fuel { s with sysEntries := rest }
    | [] =>
      match s.hoardEntries with
      | name :: rest =>
        match s.current with
        | none => []
        | some cur =>
          let child : AFItem := ⟨cur.root, cur.rel ++ [name]⟩
          if afKeep child then
            if afIsFile child then
              child :: afRun fuel { s with hoardEntries := rest }
            else if afIsDir child then
              afRun fuel { s with
                hoardEntries := rest
                rootPaths := child :: s.rootPaths }
            else afRun fuel { s with hoardEntries := rest }
          else afRun fuel { s with hoardEntries := rest }
      | [] =>
        match s.rootPaths with
        | [] => []
        | item :: stack =>
          if afKeep item then
            if afIsFile item then
              item :: afRun fuel { s with rootPaths := stack }
            else if afIsDir item then
              afRun fuel ⟨stack, afChildNames item.root.sys item.rel,
                afChildNames item.root.hoard item.rel, some item⟩
            else afRun fuel { s with rootPaths := stack }
          else afRun fuel { s with rootPaths := stack }

/-- The child node under a name, `none` when the node is absent or not a
directory. -/
def childAt (t : Option FsNode) (n : String) : Option FsNode :=
  match t with
  | some (.dir cs) => mapGet cs n
  | _ => none

mutual

/-- Size of a tree (the recursion measure for the traversal). -/
def nodeSize : FsNode → Nat
  | .file => 1
  | .dir cs => 1 + entriesSize cs

/-- Combined size of a children list. -/
def entriesSize : List (String × FsNode) → Nat
  | [] => 0
  | kv :: rest => nodeSize kv.2 + entriesSize rest

end

/-- Size of an optional node. -/
def optSize : Option FsNode → Nat
  | some t => nodeSize t
  | none => 0

/-- The combined size of the two sides of a root at a relative path;
strictly decreases from a path to any of its directory children. -/
def afSize (R : AFRoot) (rel : List String) : Nat :=
  optSize (findNode rel R.sys) + optSize (findNode rel R.hoard)

/-- A path the iterator yields when its parent's entries are drained or
when it is popped: a kept file (`next`, lines 222–224 and 267–269;
`ensure_dir_entries`, lines 128–129). -/
def fileStep (R : AFRoot) (q : List String) : Bool :=
  afIsFile ⟨R, q⟩ && R.keep q

/-- A path the iterator pushes and later traverses: kept, not a file on
either side, a directory on some side (`next`, lines 225–227 and 270–272;
`ensure_dir_entries`, lines 130–163). -/
def dirStep (R : AFRoot) (q : List String) : Bool :=
  !afIsFile ⟨R, q⟩ && (afIsDir ⟨R, q⟩ && R.keep q)

/-- The file children a directory's drain yields, in drain order: the
system-side direntries followed by the hoard-side direntries, one
occurrence each. -/
def afFiles (R : AFRoot) (rel : List String) : List String :=
  (afChildNames R.sys rel ++ afChildNames R.hoard rel).filter
    (fun n => fileStep R (rel ++ [n]))

/-- The directory children a directory's drain pushes, in push order. -/
def afDirs (R : AFRoot) (rel : List String) : List String :=
  (afChildNames R.sys rel ++ afChildNames R.hoard rel).filter
    (fun n => dirStep R (rel ++ [n]))

/-- The exact yield stream of processing the popped item at `rel`,
defined by recursion on a depth budget `d` (any `d > afSize R rel`
suffices): a kept file yields itself; a kept directory yields its kept
file children — once per direntry occurrence, system side first, then
hoard side — and then traverses its pushed directory children in reverse
push order (the work stack is LIFO). -/
def pairYields (R : AFRoot) : Nat → List String → List (List String)
  | 0, _ => []
  | d+1, rel =>
    if afKeep ⟨R, rel⟩ = true then
      if afIsFile ⟨R, rel⟩ = true then [rel]
      else if afIsDir ⟨R, rel⟩ = true then
        (afFiles R rel).map (fun n => rel ++ [n]) ++
        ((afDirs R rel).reverse.map
            (fun n => pairYields R d (rel ++ [n]))).flatten
      else []
    else []

/-- The number of `next`-loop iterations processing the popped item at
`rel` consumes: one for the pop, one per direntry of both sides, plus the
recursive cost of every pushed directory child. -/
def pairCost (R : AFRoot) : Nat → List String → Nat
  | 0, _ => 0
  | d+1, rel =>
    if afKeep ⟨R, rel⟩ = true then
      if afIsFile ⟨R, rel⟩ = true then 1
      else if afIsDir ⟨R, rel⟩ = true then
        1 + ((afChildNames R.sys rel).length +
          (afChildNames R.hoard rel).length) +
        ((afDirs R rel).map (fun n => pairCost R d (rel ++ [n]))).sum
      else 1
    else 1

/-- How many direntry occurrences of the name `n` the two sides of the
directory at `q` hold: `1` when `n` is present on exactly one side, `2`
when present on both — the per-level yield multiplicity. -/
def occCount (R : AFRoot) (q : List String) (n : String) : Nat :=
  (afChildNames R.sys q).count n + (afChildNames R.hoard q).count n

/-- The yield multiplicity of the path `rel ++ q`: the product of the
per-level direntry occurrence counts along `q`. -/
def prodOcc (R : AFRoot) (rel : List String) : List String → Nat
  | [] => 1
  | n :: q' => occCount R rel n * prodOcc R (rel ++ [n]) q'

/-- Every proper prefix of `rel ++ q` from `rel` on is a kept directory
(not a file on either side) — the condition for the traversal to descend
all the way to `rel ++ q`. -/
def chainTo (R : AFRoot) (rel : List String) : List String → Bool
  | [] => true
  | n :: q' => dirStep R rel && chainTo R (rel ++ [n]) q'

/-- A one-element operation stream (an unchanged anonymous-pile file), used
to evaluate the `Hoard::new` embedding at a concrete input. -/
def opsC10 : List ItemOperation :=
  [ItemOperation.Nothing ⟨none, "file", some (Checksum.MD5 "aa"), none⟩]

/-- The hoard `Hoard::new` builds from `opsC10` under `Backup`. -/
def hoardC10 : HoardV2 :=
  (hoardNew Direction.Backup opsC10).toOption.getD (HoardV2.Named [])

end SaveHoarder

namespace SaveHoarder

/-! ## Lemmas and theorems -/

lemma charListLe_total : ∀ a b : List Char, charListLe a b = true ∨ charListLe b a = true := by
  intro a
  induction a with
  | nil => intro b; left; rfl
  | cons x xs ih =>
    intro b
    cases b with
    | nil => right; rfl
    | cons y ys =>
      by_cases hxy : x = y
      · subst hxy
        rcases ih ys with h | h
        · left; simpa [charListLe] using h
        · right; simpa [charListLe] using h
      · rcases lt_or_gt_of_ne hxy with h | h
        · left; simp [charListLe, hxy, h]
        · right
          have hyx : y ≠ x := fun hc => hxy hc.symm
          simp [charListLe, hyx, h]

lemma charListLe_trans : ∀ a b c : List Char,
    charListLe a b = true → charListLe b c = true → charListLe a c = true := by
  intro a
  induction a with
  | nil => intro b c _ _; rfl
  | cons x xs ih =>
    intro b c hab hbc
    cases b with
    | nil => simp [charListLe] at hab
    | cons y ys =>
      cases c with
      | nil => simp [charListLe] at hbc
      | cons z zs =>
        by_cases hxy : x = y <;> by_cases hyz : y = z
        · subst hxy; subst hyz
          simp only [charListLe, if_pos rfl] at hab hbc ⊢
          exact ih ys zs hab hbc
        · subst hxy
          simp only [charListLe, if_pos rfl] at hab
          simpa [charListLe, hyz] using hbc
        · subst hyz
          simpa [charListLe, hxy] using hab
        · simp only [charListLe, if_neg hxy, decide_eq_true_eq] at hab
          simp only [charListLe, if_neg hyz, decide_eq_true_eq] at hbc
          have hxz : x < z := lt_trans hab hbc
          simp [charListLe, ne_of_lt hxz, hxz]

instance : IsTotal LogDirEntry logLe :=
  ⟨fun a b => charListLe_total a.entry.name.data b.entry.name.data⟩

instance : IsTrans LogDirEntry logLe :=
  ⟨fun _ _ _ hab hbc => charListLe_trans _ _ _ hab hbc⟩

lemma charListLe_refl : ∀ a : List Char, charListLe a a = true := by
  intro a
  induction a with
  | nil => rfl
  | cons x xs ih => simpa [charListLe] using ih

lemma logLe_refl (a : LogDirEntry) : logLe a a :=
  charListLe_refl a.entry.name.data

lemma sorted_le_getLast :
    ∀ l : List LogDirEntry, l.Sorted logLe →
      ∀ recent, l.getLast? = some recent → ∀ e ∈ l, logLe e recent := by
  intro l
  induction l with
  | nil => intro _ recent h; simp at h
  | cons x t ih =>
    intro hs recent hlast e he
    cases t with
    | nil =>
      simp at hlast
      subst hlast
      rcases List.mem_singleton.mp he with rfl
      exact logLe_refl e
    | cons y t' =>
      rw [List.getLast?_cons_cons] at hlast
      rcases List.mem_cons.mp he with rfl | he'
      · exact List.rel_of_sorted_cons hs recent (List.mem_of_mem_getLast? hlast)
      · exact ih (List.sorted_cons.mp hs).2 recent hlast e he'

lemma findLastIdx_eq_none {α : Type} (p : α → Bool) :
    ∀ l : List α, findLastIdx p l = none ↔ ∀ e ∈ l, p e = false := by
  intro l
  induction l with
  | nil => simp [findLastIdx]
  | cons a t ih =>
    constructor
    · intro h e he
      unfold findLastIdx at h
      rcases h' : findLastIdx p t with _ | i
      · rw [h'] at h
        rcases List.mem_cons.mp he with rfl | het
        · by_contra hpe
          simp [Bool.not_eq_false] at hpe
          simp [hpe] at h
        · exact (ih.mp h') e het
      · rw [h'] at h; simp at h
    · intro h
      have ht : findLastIdx p t = none := ih.mpr fun e he => h e (List.mem_cons_of_mem a he)
      have ha : p a = false := h a (List.mem_cons_self a t)
      unfold findLastIdx
      rw [ht, ha]
      simp

lemma findLastIdx_spec {α : Type} (p : α → Bool) :
    ∀ (l : List α) (i : Nat), findLastIdx p l = some i →
      (∀ b, l.get? i = some b → p b = true) ∧
      (∀ j e, i < j → l.get? j = some e → p e = false) := by
  intro l
  induction l with
  | nil => intro i h; simp [findLastIdx] at h
  | cons a t ih =>
    intro i h
    unfold findLastIdx at h
    rcases h' : findLastIdx p t with _ | i'
    · rw [h'] at h
      by_cases hpa : p a = true
      · simp [hpa] at h
        subst h
        refine ⟨fun b hb => by simp at hb; rw [← hb]; exact hpa, ?_⟩
        intro j e hj hje
        cases j with
        | zero => omega
        | succ j' =>
          simp only [List.get?_cons_succ] at hje
          exact (findLastIdx_eq_none p t).mp h' e (List.get?_mem hje)
      · simp [Bool.not_eq_true] at hpa
        simp [hpa] at h
    · rw [h'] at h
      simp at h
      subst h
      obtain ⟨hget, hafter⟩ := ih i' h'
      refine ⟨fun b hb => hget b (by simpa using hb), ?_⟩
      intro j e hj hje
      cases j with
      | zero => omega
      | succ j' =>
        simp only [List.get?_cons_succ] at hje
        exact hafter j' e (by omega) hje

lemma filter_not_contains_nil (l l' : List LogDirEntry) (h : ∀ x ∈ l, x ∈ l') :
    l.filter (fun y => !(l'.contains y)) = [] := by
  induction l with
  | nil => rfl
  | cons a t ih =>
    have ha : a ∈ l' := h a (List.mem_cons_self a t)
    have ht := ih fun x hx => h x (List.mem_cons_of_mem a hx)
    simp [List.filter_cons, ha, ht]
    exact fun x hx => h x (List.mem_cons_of_mem a hx)

lemma filter_not_contains_singleton (a : LogDirEntry) (l' : List LogDirEntry)
    (h : a ∉ l') : [a].filter (fun y => !(l'.contains y)) = [a] := by
  simp [List.filter_cons, h]

lemma filter_retained_backup (rest : List LogDirEntry) (recent : LogDirEntry)
    (h : recent ∉ rest) :
    (rest ++ [recent]).filter (fun e => !(rest.contains e)) = [recent] := by
  rw [List.filter_append, filter_not_contains_nil _ _ fun x hx => hx,
    filter_not_contains_singleton recent _ h]
  rfl

lemma filter_not_contains_eraseIdx :
    ∀ (l : List LogDirEntry), l.Nodup →
      ∀ (i : Nat) (b : LogDirEntry), l.get? i = some b →
        l.filter (fun x => !((l.eraseIdx i).contains x)) = [b] := by
  intro l
  induction l with
  | nil => intro _ i b h; simp at h
  | cons a t ih =>
    intro hnd i b hget
    cases i with
    | zero =>
      have hab : a = b := by simpa using hget
      subst hab
      have hba : a ∉ t := (List.nodup_cons.mp hnd).1
      simp only [List.eraseIdx_cons_zero]
      simp [List.filter_cons, hba, filter_not_contains_nil t t fun x hx => hx]
    | succ i' =>
      simp only [List.get?_cons_succ] at hget
      have hat : a ∉ t := (List.nodup_cons.mp hnd).1
      simp only [List.eraseIdx_cons_succ]
      rw [List.filter_cons, if_neg (by simp)]
      have hcongr :
          t.filter (fun x => !((a :: t.eraseIdx i').contains x)) =
            t.filter (fun x => !((t.eraseIdx i').contains x)) := by
        apply List.filter_congr
        intro x hx
        have hxa : x ≠ a := fun hc => hat (hc ▸ hx)
        simp [hxa]
      rw [hcongr]
      exact ih (List.nodup_cons.mp hnd).2 i' b hget

lemma filter_retained_restore (rest : List LogDirEntry) (recent b : LogDirEntry)
    (i : Nat) (hnd : rest.Nodup) (hget : rest.get? i = some b)
    (h : recent ∉ rest) :
    (rest ++ [recent]).filter (fun e => !((rest.eraseIdx i).contains e)) =
      [b, recent] := by
  rw [List.filter_append, filter_not_contains_eraseIdx _ hnd i b hget,
    filter_not_contains_singleton recent _
      fun hc => h (List.mem_of_mem_eraseIdx hc)]
  rfl

/-- **C1.** For every input diff and every fixed `Direction`, `OperationIter`
maps the diff to exactly one `ItemOperation` according to the §4.6 table:
any `Modified` variant maps to `Modify` regardless of direction and diff
source; `Created`/`Recreated` maps to `Create` when the diff source is
`Mixed`, or `(Backup, Local)`, or `(Restore, Remote or Unknown)`, and to
`Delete` when `(Backup, Remote or Unknown)` or `(Restore, Local)`;
`Deleted` maps to `Delete` when `Mixed`, `(Backup, Local)`, or
`(Restore, Remote or Unknown)`, and to `Create` when
`(Backup, Remote or Unknown)` or `(Restore, Local)`; `Unchanged` maps to
`Nothing`.  The mapping is total and a pure function of `(diff, direction)`
— witnessed by `operationNext` being a total Lean function and the stream
output being its pointwise `map`. -/
theorem operation_iter_truth_table :
    (∀ dir f ds, operationNext dir (.BinaryModified f ds) = .Modify f) ∧
    (∀ dir f ud ds, operationNext dir (.TextModified f ud ds) = .Modify f) ∧
    (∀ dir f hp sp ds, operationNext dir (.PermissionsModified f hp sp ds) = .Modify f) ∧
    (∀ dir f, operationNext dir (.Created f .Mixed) = .Create f) ∧
    (∀ f, operationNext .Backup (.Created f .Local) = .Create f) ∧
    (∀ f, operationNext .Backup (.Created f .Remote) = .Delete f) ∧
    (∀ f, operationNext .Backup (.Created f .Unknown) = .Delete f) ∧
    (∀ f, operationNext .Restore (.Created f .Remote) = .Create f) ∧
    (∀ f, operationNext .Restore (.Created f .Unknown) = .Create f) ∧
    (∀ f, operationNext .Restore (.Created f .Local) = .Delete f) ∧
    (∀ dir f, operationNext dir (.Recreated f .Mixed) = .Create f) ∧
    (∀ f, operationNext .Backup (.Recreated f .Local) = .Create f) ∧
    (∀ f, operationNext .Backup (.Recreated f .Remote) = .Delete f) ∧
    (∀ f, operationNext .Backup (.Recreated f .Unknown) = .Delete f) ∧
    (∀ f, operationNext .Restore (.Recreated f .Remote) = .Create f) ∧
    (∀ f, operationNext .Restore (.Recreated f .Unknown) = .Create f) ∧
    (∀ f, operationNext .Restore (.Recreated f .Local) = .Delete f) ∧
    (∀ dir f, operationNext dir (.Deleted f .Mixed) = .Delete f) ∧
    (∀ f, operationNext .Backup (.Deleted f .Local) = .Delete f) ∧
    (∀ f, operationNext .Restore (.Deleted f .Remote) = .Delete f) ∧
    (∀ f, operationNext .Restore (.Deleted f .Unknown) = .Delete f) ∧
    (∀ f, operationNext .Backup (.Deleted f .Remote) = .Create f) ∧
    (∀ f, operationNext .Backup (.Deleted f .Unknown) = .Create f) ∧
    (∀ f, operationNext .Restore (.Deleted f .Local) = .Create f) ∧
    (∀ dir f, operationNext dir (.Unchanged f) = .Nothing f) ∧
    (∀ dir diffs, operationIterRun dir diffs = diffs.map (operationNext dir)) := by
  refine ⟨?_, ?_, ?_, ?_, ?_, ?_, ?_, ?_, ?_, ?_, ?_, ?_, ?_, ?_, ?_, ?_, ?_, ?_,
    ?_, ?_, ?_, ?_, ?_, ?_, ?_, ?_⟩ <;>
    first
      | (intro dir f ds; cases dir <;> rfl)
      | (intro dir f ud ds; cases dir <;> rfl)
      | (intro dir f hp sp ds; cases dir <;> rfl)
      | (intro dir f; cases dir <;> rfl)
      | (intro f; rfl)

/-- **C9.** A directory entry is treated as an operation log if and only if
it is a regular file whose name matches the anchored regex
`^[0-9]{4}(_[0-9]{2}){2}-([0-9]{2}_){2}([0-9]{2})\.[0-9]{6}\.log$`; the
name `2024_01_02-03_04_05.000000.log` is accepted, while
`2024-01-02T03:04:05.log`, `last_paths.json`, and
`2024_01_02-03_04_05.log` are all rejected. -/
theorem file_is_log_regex :
    (∀ entry : DirEntryInfo,
      fileIsLog entry = true ↔
        entry.isRegularFile = true ∧ logFileRegexMatches entry.name = true) ∧
    logFileRegexMatches "2024_01_02-03_04_05.000000.log" = true ∧
    logFileRegexMatches "2024-01-02T03:04:05.log" = false ∧
    logFileRegexMatches "last_paths.json" = false ∧
    logFileRegexMatches "2024_01_02-03_04_05.log" = false := by
  refine ⟨fun entry => ?_, by decide, by decide, by decide, by decide⟩
  simp [fileIsLog]

/-- **C3.** After `cleanup_operations` completes successfully, each
`(system_id, hoard_name)` log directory contains exactly the
lexicographically latest log file if that log records a `Backup`; if the
latest log records a `Restore`, the directory contains exactly that log
plus the latest `Backup` log preceding it (when one exists); all other log
files are deleted.  Concretely, for log sequence `B1, B2, R3` the
post-cleanup set is `{B2, R3}`; for `B1, R2, B3` it is `{B3}` only. -/
theorem cleanup_retention_policy :
    (∀ entries : List LogDirEntry,
      ((logsIn entries).map (fun e => e.entry.name)).Nodup →
      ∀ recent, (logsIn entries).getLast? = some recent →
        (∀ e ∈ logsIn entries, nameLe e.entry.name recent.entry.name = true) ∧
        (recent.direction = .Backup → cleanupRetained entries = [recent]) ∧
        (recent.direction = .Restore →
          ((∀ e ∈ (logsIn entries).dropLast, e.direction = .Restore) →
            cleanupRetained entries = [recent]) ∧
          (∀ i b,
            findLastIdx (fun e => e.direction = .Backup)
              ((logsIn entries).dropLast) = some i →
            ((logsIn entries).dropLast).get? i = some b →
            b.direction = .Backup ∧
            (∀ j e, i < j → ((logsIn entries).dropLast).get? j = some e →
              e.direction = .Restore) ∧
            cleanupRetained entries = [b, recent]))) ∧
    cleanupRetained
      [⟨⟨true, "2024_01_01-00_00_00.000000.log"⟩, .Backup⟩,
       ⟨⟨true, "2024_01_02-00_00_00.000000.log"⟩, .Backup⟩,
       ⟨⟨true, "2024_01_03-00_00_00.000000.log"⟩, .Restore⟩] =
      [⟨⟨true, "2024_01_02-00_00_00.000000.log"⟩, .Backup⟩,
       ⟨⟨true, "2024_01_03-00_00_00.000000.log"⟩, .Restore⟩] ∧
    cleanupRetained
      [⟨⟨true, "2024_01_01-00_00_00.000000.log"⟩, .Backup⟩,
       ⟨⟨true, "2024_01_02-00_00_00.000000.log"⟩, .Restore⟩,
       ⟨⟨true, "2024_01_03-00_00_00.000000.log"⟩, .Backup⟩] =
      [⟨⟨true, "2024_01_03-00_00_00.000000.log"⟩, .Backup⟩] := by
  refine ⟨?_, by decide, by decide⟩
  intro entries hnames recent hlast
  have hsorted : (logsIn entries).Sorted logLe := List.sorted_insertionSort logLe _
  have hnd : (logsIn entries).Nodup := hnames.of_map
  have hsplit : (logsIn entries).dropLast ++ [recent] = logsIn entries :=
    List.dropLast_append_getLast? recent hlast
  have hnd' : ((logsIn entries).dropLast ++ [recent]).Nodup := by rw [hsplit]; exact hnd
  have hndrest : ((logsIn entries).dropLast).Nodup := (List.nodup_append.mp hnd').1
  have hrec_not : recent ∉ (logsIn entries).dropLast := by
    intro hc
    exact (List.nodup_append.mp hnd').2.2 hc (List.mem_singleton_self recent)
  refine ⟨fun e he => sorted_le_getLast _ hsorted recent hlast e he, ?_, ?_⟩
  · intro hb
    have hdel : cleanupDeletionList entries = (logsIn entries).dropLast := by
      simp only [cleanupDeletionList]
      rw [hlast]
      simp [hb]
    calc cleanupRetained entries
        = ((logsIn entries).dropLast ++ [recent]).filter
            (fun e => !(((logsIn entries).dropLast).contains e)) := by
          unfold cleanupRetained
          rw [hdel, hsplit]
      _ = [recent] := filter_retained_backup _ _ hrec_not
  · intro hr
    constructor
    · intro hall
      have hnone :
          findLastIdx (fun e => e.direction = .Backup)
            ((logsIn entries).dropLast) = none :=
        (findLastIdx_eq_none _ _).mpr fun e he => by simp [hall e he]
      have hdel : cleanupDeletionList entries = (logsIn entries).dropLast := by
        simp only [cleanupDeletionList]
        rw [hlast]
        simp [hr, hnone]
      calc cleanupRetained entries
          = ((logsIn entries).dropLast ++ [recent]).filter
              (fun e => !(((logsIn entries).dropLast).contains e)) := by
            unfold cleanupRetained
            rw [hdel, hsplit]
        _ = [recent] := filter_retained_backup _ _ hrec_not
    · intro i b hfind hget
      obtain ⟨hp, hafter⟩ := findLastIdx_spec _ _ _ hfind
      have hbdir : b.direction = .Backup := by
        have := hp b hget
        simpa using this
      refine ⟨hbdir, ?_, ?_⟩
      · intro j e hj hje
        have he := hafter j e hj hje
        cases hdir : e.direction
        · rw [hdir] at he; simp at he
        · rfl
      · have hdel :
            cleanupDeletionList entries = ((logsIn entries).dropLast).eraseIdx i := by
          simp only [cleanupDeletionList]
          rw [hlast]
          simp [hr, hfind]
        calc cleanupRetained entries
            = ((logsIn entries).dropLast ++ [recent]).filter
                (fun e => !((((logsIn entries).dropLast).eraseIdx i).contains e)) := by
              unfold cleanupRetained
              rw [hdel, hsplit]
          _ = [b, recent] :=
            filter_retained_restore _ _ _ _ hndrest hget hrec_not

lemma cleanupDeleteRun_fst (outcome : String → Option String) :
    ∀ (paths : List String) (fs : String → Bool)
      (acc : Except (Nat × String) Nat) (q : String),
      ((paths.foldl (cleanupDeleteStep outcome) (fs, acc)).1) q =
        if q ∈ paths ∧ outcome q = none then false else fs q := by
  intro paths
  induction paths with
  | nil => intro fs acc q; simp
  | cons p rest ih =>
    intro fs acc q
    rw [List.foldl_cons, ih]
    rcases ho : outcome p with _ | e
    · have hstep : (cleanupDeleteStep outcome (fs, acc) p).1 =
          fun r => if r = p then false else fs r := by
        simp [cleanupDeleteStep, removeFileModel, ho]
      simp only [hstep]
      by_cases hA : q ∈ rest ∧ outcome q = none
      · rw [if_pos hA, if_pos ⟨List.mem_cons_of_mem p hA.1, hA.2⟩]
      · rw [if_neg hA]
        by_cases hqp : q = p
        · subst hqp
          rw [if_pos rfl, if_pos ⟨List.mem_cons_self q rest, ho⟩]
        · have hA' : ¬(q ∈ p :: rest ∧ outcome q = none) := by
            rintro ⟨hmem, hnone⟩
            rcases List.mem_cons.mp hmem with rfl | hm
            · exact hqp rfl
            · exact hA ⟨hm, hnone⟩
          rw [if_neg hqp, if_neg hA']
    · have hstep : (cleanupDeleteStep outcome (fs, acc) p).1 = fs := by
        simp [cleanupDeleteStep, removeFileModel, ho]
      simp only [hstep]
      by_cases hA : q ∈ rest ∧ outcome q = none
      · rw [if_pos hA, if_pos ⟨List.mem_cons_of_mem p hA.1, hA.2⟩]
      · have hA' : ¬(q ∈ p :: rest ∧ outcome q = none) := by
          rintro ⟨hmem, hnone⟩
          rcases List.mem_cons.mp hmem with rfl | hm
          · rw [ho] at hnone; exact Option.noConfusion hnone
          · exact hA ⟨hm, hnone⟩
        rw [if_neg hA, if_neg hA']

lemma cleanupDeleteRun_error_absorb (outcome : String → Option String) :
    ∀ (paths : List String) (fs : String → Bool) (e : Nat × String),
      ((paths.foldl (cleanupDeleteStep outcome) (fs, Except.error e)).2) =
        Except.error e := by
  intro paths
  induction paths with
  | nil => intro fs e; rfl
  | cons p rest ih =>
    intro fs e
    rw [List.foldl_cons]
    have hstep : (cleanupDeleteStep outcome (fs, Except.error e) p).2 =
        Except.error e := by
      simp only [cleanupDeleteStep]
    rcases hs : cleanupDeleteStep outcome (fs, Except.error e) p with ⟨fs', acc'⟩
    have : acc' = Except.error e := by rw [← hstep, hs]
    rw [this]
    exact ih fs' e

lemma cleanupDeleteRun_ok_all (outcome : String → Option String) :
    ∀ (paths : List String) (fs : String → Bool) (k : Nat),
      (∀ p ∈ paths, outcome p = none) →
      ((paths.foldl (cleanupDeleteStep outcome) (fs, Except.ok k)).2) =
        Except.ok (k + paths.length) := by
  intro paths
  induction paths with
  | nil => intro fs k _; rfl
  | cons p rest ih =>
    intro fs k h
    rw [List.foldl_cons]
    have hstep : cleanupDeleteStep outcome (fs, Except.ok k) p =
        ((cleanupDeleteStep outcome (fs, Except.ok k) p).1, Except.ok (k + 1)) := by
      have ho := h p (List.mem_cons_self p rest)
      simp [cleanupDeleteStep, removeFileModel, ho]
    rw [hstep, ih _ _ fun q hq => h q (List.mem_cons_of_mem p hq)]
    congr 1
    simp [List.length_cons]
    omega

lemma cleanupDeleteRun_first_error (outcome : String → Option String) :
    ∀ (pre : List String) (bad : String) (post : List String)
      (fs : String → Bool) (k : Nat) (e : String),
      (∀ p ∈ pre, outcome p = none) → outcome bad = some e →
      (((pre ++ bad :: post).foldl (cleanupDeleteStep outcome)
          (fs, Except.ok k)).2) = Except.error (k + pre.length, e) := by
  intro pre
  induction pre with
  | nil =>
    intro bad post fs k e _ hbad
    rw [List.nil_append, List.foldl_cons]
    have hstep : cleanupDeleteStep outcome (fs, Except.ok k) bad =
        ((cleanupDeleteStep outcome (fs, Except.ok k) bad).1,
          Except.error (k, e)) := by
      simp [cleanupDeleteStep, removeFileModel, hbad]
    rw [hstep, cleanupDeleteRun_error_absorb]
    simp
  | cons p pre' ih =>
    intro bad post fs k e h hbad
    rw [List.cons_append, List.foldl_cons]
    have hstep : cleanupDeleteStep outcome (fs, Except.ok k) p =
        ((cleanupDeleteStep outcome (fs, Except.ok k) p).1, Except.ok (k + 1)) := by
      have ho := h p (List.mem_cons_self p pre')
      simp [cleanupDeleteStep, removeFileModel, ho]
    rw [hstep, ih bad post _ (k + 1) e (fun q hq => h q (List.mem_cons_of_mem p hq)) hbad]
    congr 2
    simp [List.length_cons]
    omega

/-- **C7 (amended).** `cleanup_operations` returns the number of log files
it deleted; if deleting some file fails, it returns the first error paired
with the count of files successfully deleted before that error, and it
does not restore (roll back) any file already deleted.  However, because
the deletion pipeline is a lazy `map(remove_file)` consumed by a `fold`
that only short-circuits the *accumulator*, the remaining deletions are
still attempted after the first error (files after the failing one may
still be deleted); only counting and error recording stop. -/
theorem cleanup_error_reporting :
    (∀ (outcome : String → Option String) (paths : List String) (fs : String → Bool),
      (∀ p ∈ paths, outcome p = none) →
      (cleanupDeleteRun outcome paths fs).2 = Except.ok paths.length ∧
      (∀ q ∈ paths, (cleanupDeleteRun outcome paths fs).1 q = false)) ∧
    (∀ (outcome : String → Option String) (pre : List String) (bad : String)
      (post : List String) (fs : String → Bool) (e : String),
      (∀ p ∈ pre, outcome p = none) → outcome bad = some e →
      (cleanupDeleteRun outcome (pre ++ bad :: post) fs).2 =
        Except.error (pre.length, e) ∧
      (∀ q ∈ post, outcome q = none →
        (cleanupDeleteRun outcome (pre ++ bad :: post) fs).1 q = false)) ∧
    (∀ (outcome : String → Option String) (paths : List String)
      (fs : String → Bool) (q : String),
      (cleanupDeleteRun outcome paths fs).1 q = true → fs q = true) := by
  refine ⟨?_, ?_, ?_⟩
  · intro outcome paths fs h
    constructor
    · have := cleanupDeleteRun_ok_all outcome paths fs 0 h
      simpa [cleanupDeleteRun] using this
    · intro q hq
      rw [cleanupDeleteRun, cleanupDeleteRun_fst, if_pos ⟨hq, h q hq⟩]
  · intro outcome pre bad post fs e hpre hbad
    constructor
    · have := cleanupDeleteRun_first_error outcome pre bad post fs 0 e hpre hbad
      simpa [cleanupDeleteRun] using this
    · intro q hq hqnone
      have hmem : q ∈ pre ++ bad :: post :=
        List.mem_append_right pre (List.mem_cons_of_mem bad hq)
      rw [cleanupDeleteRun, cleanupDeleteRun_fst, if_pos ⟨hmem, hqnone⟩]
  · intro outcome paths fs q h
    rw [cleanupDeleteRun, cleanupDeleteRun_fst] at h
    by_cases hc : q ∈ paths ∧ outcome q = none
    · rw [if_pos hc] at h; exact absurd h (by simp)
    · rwa [if_neg hc] at h

section MapLemmas

variable {κ β : Type} [BEq κ]

lemma mapGet_cons (kv : κ × β) (t : List (κ × β)) (k : κ) :
    mapGet (kv :: t) k =
      if (kv.1 == k) = true then some kv.2 else mapGet t k := by
  by_cases h : (kv.1 == k) = true
  · rw [if_pos h]
    unfold mapGet
    rw [@List.find?_cons_of_pos _ (fun kv => kv.1 == k) kv t h]
    rfl
  · rw [if_neg h]
    unfold mapGet
    rw [@List.find?_cons_of_neg _ (fun kv => kv.1 == k) kv t h]

lemma mapAdjust_cons (kv : κ × β) (t : List (κ × β)) (k : κ) (f : β → β) :
    mapAdjust (kv :: t) k f =
      (if (kv.1 == k) = true then (kv.1, f kv.2) else kv) :: mapAdjust t k f := by
  rfl

lemma mapGet_insertIfAbsent_self [LawfulBEq κ] (l : List (κ × β)) (k : κ) (v : β) :
    mapGet (mapInsertIfAbsent l k v) k = some ((mapGet l k).getD v) := by
  unfold mapInsertIfAbsent
  rcases h : l.find? (fun kv => kv.1 == k) with _ | kv
  · rw [if_neg (by simp [h])]
    unfold mapGet
    rw [List.find?_append, h]
    simp
  · rw [if_pos (by simp [h])]
    unfold mapGet
    rw [h]
    rfl

lemma mapGet_insertIfAbsent_ne [LawfulBEq κ] (l : List (κ × β)) (k k' : κ) (v : β)
    (hne : k' ≠ k) :
    mapGet (mapInsertIfAbsent l k v) k' = mapGet l k' := by
  unfold mapInsertIfAbsent
  rcases h : l.find? (fun kv => kv.1 == k) with _ | kv
  · rw [if_neg (by simp [h])]
    unfold mapGet
    rw [List.find?_append]
    have hk : ((k, v).1 == k') = false := by
      simp only [beq_eq_false_iff_ne]
      exact fun hc => hne hc.symm
    rw [List.find?_cons_of_neg _ (by simp [hk]), List.find?_nil]
    simp
  · rw [if_pos (by simp [h])]

lemma mapGet_adjust_self [LawfulBEq κ] (l : List (κ × β)) (k : κ) (f : β → β) :
    mapGet (mapAdjust l k f) k = (mapGet l k).map f := by
  induction l with
  | nil => rfl
  | cons kv t ih =>
    by_cases hkv : (kv.1 == k) = true
    · rw [mapAdjust_cons, if_pos hkv, mapGet_cons, mapGet_cons, if_pos hkv]
      rw [if_pos (by simpa using hkv)]
      rfl
    · rw [mapAdjust_cons, if_neg hkv, mapGet_cons, mapGet_cons, if_neg hkv,
        if_neg hkv]
      exact ih

lemma mapGet_adjust_ne [LawfulBEq κ] (l : List (κ × β)) (k k' : κ) (f : β → β)
    (hne : k' ≠ k) :
    mapGet (mapAdjust l k f) k' = mapGet l k' := by
  induction l with
  | nil => rfl
  | cons kv t ih =>
    by_cases hkv : (kv.1 == k) = true
    · have hk1 : kv.1 = k := by simpa using hkv
      have hfalse : (kv.1 == k') = false := by
        simp only [beq_eq_false_iff_ne]
        intro hc
        exact hne (by rw [← hc, hk1])
      rw [mapAdjust_cons, if_pos hkv, mapGet_cons, mapGet_cons,
        if_neg (by simp [hfalse]), if_neg (by simp [hfalse])]
      exact ih
    · rw [mapAdjust_cons, if_neg hkv, mapGet_cons, mapGet_cons]
      by_cases h2 : (kv.1 == k') = true
      · rw [if_pos h2, if_pos h2]
      · rw [if_neg h2, if_neg h2]
        exact ih

lemma mapAdjust_keys (l : List (κ × β)) (k : κ) (f : β → β) :
    (mapAdjust l k f).map Prod.fst = l.map Prod.fst := by
  induction l with
  | nil => rfl
  | cons kv t ih =>
    rw [mapAdjust_cons, List.map_cons, List.map_cons, ih]
    congr 1
    by_cases hkv : (kv.1 == k) = true
    · rw [if_pos hkv]
    · rw [if_neg hkv]

lemma mapInsertIfAbsent_keys_nodup [LawfulBEq κ] (l : List (κ × β)) (k : κ) (v : β)
    (h : (l.map Prod.fst).Nodup) :
    ((mapInsertIfAbsent l k v).map Prod.fst).Nodup := by
  unfold mapInsertIfAbsent
  rcases hf : l.find? (fun kv => kv.1 == k) with _ | kv
  · rw [if_neg (by simp [hf]), List.map_append]
    have hk : k ∉ l.map Prod.fst := by
      intro hc
      rcases List.mem_map.mp hc with ⟨kv, hkv, hfst⟩
      have h2 := List.find?_eq_none.mp hf kv hkv
      simp [hfst] at h2
    rw [List.nodup_append]
    exact ⟨h, List.nodup_singleton k,
      fun a ha hak => hk (by rwa [List.mem_singleton.mp hak] at ha)⟩
  · rw [if_pos (by simp [hf])]
    exact h

lemma mapGet_key_mem [LawfulBEq κ] (l : List (κ × β)) (k : κ) (b : β)
    (h : mapGet l k = some b) : k ∈ l.map Prod.fst := by
  unfold mapGet at h
  rcases hf : l.find? (fun kv => kv.1 == k) with _ | kv
  · rw [hf] at h
    exact absurd h (by simp)
  · have hmem := List.mem_of_find?_eq_some hf
    have hkey := List.find?_some hf
    have he : kv.1 = k := by simpa using hkey
    exact he ▸ List.mem_map.mpr ⟨kv, hmem, rfl⟩

lemma mapGet_of_mem_snd [LawfulBEq κ] (l : List (κ × β)) (b : β)
    (hnd : (l.map Prod.fst).Nodup) (h : b ∈ l.map Prod.snd) :
    ∃ k, mapGet l k = some b := by
  induction l with
  | nil => simp at h
  | cons kv t ih =>
    rw [List.map_cons, List.nodup_cons] at hnd
    rcases List.mem_map.mp h with ⟨kv', hkv', hsnd⟩
    rcases List.mem_cons.mp hkv' with rfl | hmem
    · refine ⟨kv'.1, ?_⟩
      rw [mapGet_cons, if_pos (by simp)]
      exact congrArg some hsnd
    · rcases ih hnd.2 (List.mem_map.mpr ⟨kv', hmem, hsnd⟩) with ⟨k, hk⟩
      have hkmem : k ∈ t.map Prod.fst := mapGet_key_mem t k b hk
      have hne : (kv.1 == k) = false := by
        simp only [beq_eq_false_iff_ne]
        intro hc
        exact hnd.1 (hc ▸ hkmem)
      exact ⟨k, by rw [mapGet_cons, if_neg (by simp [hne])]; exact hk⟩

lemma mapGet_adjustInsert_self [LawfulBEq κ] (l : List (κ × β)) (k : κ) (v : β)
    (g : β → β) :
    mapGet (mapAdjust (mapInsertIfAbsent l k v) k g) k =
      some (g ((mapGet l k).getD v)) := by
  rw [mapGet_adjust_self, mapGet_insertIfAbsent_self]
  rfl

lemma mapGet_adjustInsert_ne [LawfulBEq κ] (l : List (κ × β)) (k k' : κ) (v : β)
    (g : β → β) (hne : k' ≠ k) :
    mapGet (mapAdjust (mapInsertIfAbsent l k v) k g) k' = mapGet l k' := by
  rw [mapGet_adjust_ne _ _ _ _ hne, mapGet_insertIfAbsent_ne _ _ _ _ hne]

lemma adjustInsert_keys_nodup [LawfulBEq κ] (l : List (κ × β)) (k : κ) (v : β)
    (g : β → β) (h : (l.map Prod.fst).Nodup) :
    ((mapAdjust (mapInsertIfAbsent l k v) k g).map Prod.fst).Nodup := by
  rw [mapAdjust_keys]
  exact mapInsertIfAbsent_keys_nodup _ _ _ h

end MapLemmas

/-! ### Facts about the `Hoard::new` fold -/

lemma lookupPileS_write_self (acc : List (String × PileV2)) (pn : Option String)
    (g : PileV2 → PileV2) :
    lookupPileS (modifyPileS (getOrCreatePileS acc pn) pn g) (pileMapKey pn) =
      some (g ((lookupPileS acc (pileMapKey pn)).getD PileV2.defaultPile)) := by
  unfold lookupPileS modifyPileS getOrCreatePileS
  exact mapGet_adjustInsert_self _ _ _ _

lemma lookupPileS_write_ne (acc : List (String × PileV2)) (pn : Option String)
    (g : PileV2 → PileV2) (key : String) (hne : key ≠ pileMapKey pn) :
    lookupPileS (modifyPileS (getOrCreatePileS acc pn) pn g) key =
      lookupPileS acc key := by
  unfold lookupPileS modifyPileS getOrCreatePileS
  exact mapGet_adjustInsert_ne _ _ _ _ _ hne

lemma hoardNewStep_create_inv {direction : Direction}
    {acc acc' : List (String × PileV2)} {f : HoardItem}
    (h : hoardNewStep direction acc (.Create f) = .ok acc') :
    ∃ c, directionChecksum direction f = some c ∧
      acc' = modifyPileS (getOrCreatePileS acc f.pileName) f.pileName
        (fun pile => { pile with created :=
          fun r => if r = f.relPath then some c else pile.created r }) := by
  cases direction
  · rcases hc : f.systemChecksum with _ | c
    · simp [hoardNewStep, requireChecksum, hc, Bind.bind, Except.bind] at h
    · simp only [hoardNewStep, requireChecksum, hc, Bind.bind, Except.bind,
        Except.ok.injEq] at h
      exact ⟨c, hc, h.symm⟩
  · rcases hc : f.hoardChecksum with _ | c
    · simp [hoardNewStep, requireChecksum, hc, Bind.bind, Except.bind] at h
    · simp only [hoardNewStep, requireChecksum, hc, Bind.bind, Except.bind,
        Except.ok.injEq] at h
      exact ⟨c, hc, h.symm⟩

lemma hoardNewStep_modify_inv {direction : Direction}
    {acc acc' : List (String × PileV2)} {f : HoardItem}
    (h : hoardNewStep direction acc (.Modify f) = .ok acc') :
    ∃ c, directionChecksum direction f = some c ∧
      acc' = modifyPileS (getOrCreatePileS acc f.pileName) f.pileName
        (fun pile => { pile with modified :=
          fun r => if r = f.relPath then some c else pile.modified r }) := by
  cases direction
  · rcases hc : f.systemChecksum with _ | c
    · simp [hoardNewStep, requireChecksum, hc, Bind.bind, Except.bind] at h
    · simp only [hoardNewStep, requireChecksum, hc, Bind.bind, Except.bind,
        Except.ok.injEq] at h
      exact ⟨c, hc, h.symm⟩
  · rcases hc : f.hoardChecksum with _ | c
    · simp [hoardNewStep, requireChecksum, hc, Bind.bind, Except.bind] at h
    · simp only [hoardNewStep, requireChecksum, hc, Bind.bind, Except.bind,
        Except.ok.injEq] at h
      exact ⟨c, hc, h.symm⟩

lemma hoardNewStep_delete_inv {direction : Direction}
    {acc acc' : List (String × PileV2)} {f : HoardItem}
    (h : hoardNewStep direction acc (.Delete f) = .ok acc') :
    acc' = modifyPileS (getOrCreatePileS acc f.pileName) f.pileName
      (fun pile => { pile with deleted :=
        fun r => if r = f.relPath then true else pile.deleted r }) := by
  simp only [hoardNewStep, Except.ok.injEq] at h
  exact h.symm

lemma hoardNewStep_nothing_inv {direction : Direction}
    {acc acc' : List (String × PileV2)} {f : HoardItem}
    (h : hoardNewStep direction acc (.Nothing f) = .ok acc') :
    ∃ c, f.systemChecksum = some c ∧
      acc' = modifyPileS (getOrCreatePileS acc f.pileName) f.pileName
        (fun pile => { pile with unmodified :=
          fun r => if r = f.relPath then some c else pile.unmodified r }) := by
  rcases hc : f.systemChecksum with _ | c
  · simp [hoardNewStep, requireChecksum, hc, Bind.bind, Except.bind] at h
  · simp only [hoardNewStep, requireChecksum, hc, Bind.bind, Except.bind,
      Except.ok.injEq] at h
    exact ⟨c, rfl, h.symm⟩

lemma hoardNewStep_preserve {direction : Direction}
    {acc acc' : List (String × PileV2)} {op : ItemOperation}
    (h : hoardNewStep direction acc op = .ok acc')
    (key : String) (rel : RelPath) (hne : opMapKey op ≠ (key, rel))
    (pile : PileV2) (hl : lookupPileS acc key = some pile) :
    ∃ pile', lookupPileS acc' key = some pile' ∧
      pile'.created rel = pile.created rel ∧
      pile'.modified rel = pile.modified rel ∧
      pile'.unmodified rel = pile.unmodified rel ∧
      pile'.deleted rel = pile.deleted rel := by
  have main : ∀ (g : PileV2 → PileV2) (pn : Option String),
      pn = op.opFile.pileName →
      (∀ (q : PileV2) (r : RelPath), r ≠ op.opFile.relPath →
        (g q).created r = q.created r ∧ (g q).modified r = q.modified r ∧
        (g q).unmodified r = q.unmodified r ∧ (g q).deleted r = q.deleted r) →
      acc' = modifyPileS (getOrCreatePileS acc pn) pn g →
      ∃ pile', lookupPileS acc' key = some pile' ∧
        pile'.created rel = pile.created rel ∧
        pile'.modified rel = pile.modified rel ∧
        pile'.unmodified rel = pile.unmodified rel ∧
        pile'.deleted rel = pile.deleted rel := by
    intro g pn hpn hg hacc
    subst hacc
    by_cases hkey : key = pileMapKey pn
    · subst hkey
      have hrel : rel ≠ op.opFile.relPath := by
        intro hrc
        exact hne (by rw [opMapKey, hpn, hrc])
      rw [lookupPileS_write_self, hl]
      exact ⟨_, rfl, (hg pile rel hrel).1, (hg pile rel hrel).2.1,
        (hg pile rel hrel).2.2.1, (hg pile rel hrel).2.2.2⟩
    · rw [lookupPileS_write_ne _ _ _ _ hkey, hl]
      exact ⟨pile, rfl, rfl, rfl, rfl, rfl⟩
  cases op with
  | Create f =>
    rcases hoardNewStep_create_inv h with ⟨c, _, hacc⟩
    exact main (fun pile => { pile with created :=
        fun r => if r = f.relPath then some c else pile.created r })
      _ rfl (fun q r hr => ⟨if_neg hr, rfl, rfl, rfl⟩) hacc
  | Modify f =>
    rcases hoardNewStep_modify_inv h with ⟨c, _, hacc⟩
    exact main (fun pile => { pile with modified :=
        fun r => if r = f.relPath then some c else pile.modified r })
      _ rfl (fun q r hr => ⟨rfl, if_neg hr, rfl, rfl⟩) hacc
  | Delete f =>
    have hacc := hoardNewStep_delete_inv h
    exact main (fun pile => { pile with deleted :=
        fun r => if r = f.relPath then true else pile.deleted r })
      _ rfl (fun q r hr => ⟨rfl, rfl, rfl, if_neg hr⟩) hacc
  | Nothing f =>
    rcases hoardNewStep_nothing_inv h with ⟨c, _, hacc⟩
    exact main (fun pile => { pile with unmodified :=
        fun r => if r = f.relPath then some c else pile.unmodified r })
      _ rfl (fun q r hr => ⟨rfl, rfl, if_neg hr, rfl⟩) hacc

lemma exceptBind_ok {α β ε : Type} (x : Except ε α) (g : α → Except ε β) (b : β)
    (h : (x >>= g) = .ok b) : ∃ a, x = .ok a ∧ g a = .ok b := by
  cases x with
  | error e => simp [Bind.bind, Except.bind] at h
  | ok a => exact ⟨a, rfl, by simpa [Bind.bind, Except.bind] using h⟩

lemma hoardNewFold_preserve {direction : Direction} :
    ∀ (ops : List ItemOperation) (acc acc' : List (String × PileV2)),
      List.foldlM (hoardNewStep direction) acc ops = .ok acc' →
      ∀ key rel, (∀ op ∈ ops, opMapKey op ≠ (key, rel)) →
      ∀ pile, lookupPileS acc key = some pile →
      ∃ pile', lookupPileS acc' key = some pile' ∧
        pile'.created rel = pile.created rel ∧
        pile'.modified rel = pile.modified rel ∧
        pile'.unmodified rel = pile.unmodified rel ∧
        pile'.deleted rel = pile.deleted rel := by
  intro ops
  induction ops with
  | nil =>
    intro acc acc' h key rel _ pile hl
    simp only [List.foldlM_nil] at h
    have hacc : acc = acc' := by simpa [pure, Except.pure] using h
    exact ⟨pile, hacc ▸ hl, rfl, rfl, rfl, rfl⟩
  | cons op rest ih =>
    intro acc acc' h key rel hne pile hl
    rw [List.foldlM_cons] at h
    rcases exceptBind_ok _ _ _ h with ⟨acc₁, hstep, hrest⟩
    rcases hoardNewStep_preserve hstep key rel
        (hne op (List.mem_cons_self op rest)) pile hl with
      ⟨pile₁, hl₁, hc₁, hm₁, hu₁, hd₁⟩
    rcases ih acc₁ acc' hrest key rel
        (fun o ho => hne o (List.mem_cons_of_mem op ho)) pile₁ hl₁ with
      ⟨pile', hl', hc', hm', hu', hd'⟩
    exact ⟨pile', hl', hc'.trans hc₁, hm'.trans hm₁, hu'.trans hu₁, hd'.trans hd₁⟩

lemma hoardNewStep_records {direction : Direction}
    {acc acc' : List (String × PileV2)} {op : ItemOperation}
    (h : hoardNewStep direction acc op = .ok acc') :
    ∃ pile, lookupPileS acc' (opMapKey op).1 = some pile ∧
      (∀ f, op = .Nothing f → ∀ c, f.systemChecksum = some c →
        pile.unmodified f.relPath = some c) ∧
      (∀ f, op = .Create f → ∀ c,
        directionChecksum direction f = some c →
        pile.created f.relPath = some c) ∧
      (∀ f, op = .Modify f → ∀ c,
        directionChecksum direction f = some c →
        pile.modified f.relPath = some c) ∧
      (∀ f, op = .Delete f → pile.deleted f.relPath = true) := by
  cases op with
  | Create f =>
    rcases hoardNewStep_create_inv h with ⟨c₀, hc₀, rfl⟩
    refine ⟨_, lookupPileS_write_self acc f.pileName _, ?_, ?_, ?_, ?_⟩
    · intro f' hf'; exact ItemOperation.noConfusion hf'
    · intro f' hf' c hc
      cases hf'
      have : c₀ = c := by rw [hc₀] at hc; exact Option.some.inj hc
      subst this
      exact if_pos rfl
    · intro f' hf'; exact ItemOperation.noConfusion hf'
    · intro f' hf'; exact ItemOperation.noConfusion hf'
  | Modify f =>
    rcases hoardNewStep_modify_inv h with ⟨c₀, hc₀, rfl⟩
    refine ⟨_, lookupPileS_write_self acc f.pileName _, ?_, ?_, ?_, ?_⟩
    · intro f' hf'; exact ItemOperation.noConfusion hf'
    · intro f' hf'; exact ItemOperation.noConfusion hf'
    · intro f' hf' c hc
      cases hf'
      have : c₀ = c := by rw [hc₀] at hc; exact Option.some.inj hc
      subst this
      exact if_pos rfl
    · intro f' hf'; exact ItemOperation.noConfusion hf'
  | Delete f =>
    have hacc := hoardNewStep_delete_inv h
    subst hacc
    refine ⟨_, lookupPileS_write_self acc f.pileName _, ?_, ?_, ?_, ?_⟩
    · intro f' hf'; exact ItemOperation.noConfusion hf'
    · intro f' hf'; exact ItemOperation.noConfusion hf'
    · intro f' hf'; exact ItemOperation.noConfusion hf'
    · intro f' hf'
      cases hf'
      exact if_pos rfl
  | Nothing f =>
    rcases hoardNewStep_nothing_inv h with ⟨c₀, hc₀, rfl⟩
    refine ⟨_, lookupPileS_write_self acc f.pileName _, ?_, ?_, ?_, ?_⟩
    · intro f' hf' c hc
      cases hf'
      have : c₀ = c := by rw [hc₀] at hc; exact Option.some.inj hc
      subst this
      exact if_pos rfl
    · intro f' hf'; exact ItemOperation.noConfusion hf'
    · intro f' hf'; exact ItemOperation.noConfusion hf'
    · intro f' hf'; exact ItemOperation.noConfusion hf'

lemma hoardNewFold_records {direction : Direction} :
    ∀ (ops : List ItemOperation) (acc acc' : List (String × PileV2)),
      (ops.map opMapKey).Nodup →
      List.foldlM (hoardNewStep direction) acc ops = .ok acc' →
      ∀ op ∈ ops,
        ∃ pile, lookupPileS acc' (opMapKey op).1 = some pile ∧
          (∀ f, op = .Nothing f → ∀ c, f.systemChecksum = some c →
            pile.unmodified f.relPath = some c) ∧
          (∀ f, op = .Create f → ∀ c,
            directionChecksum direction f = some c →
            pile.created f.relPath = some c) ∧
          (∀ f, op = .Modify f → ∀ c,
            directionChecksum direction f = some c →
            pile.modified f.relPath = some c) ∧
          (∀ f, op = .Delete f → pile.deleted f.relPath = true) := by
  intro ops
  induction ops with
  | nil => intro acc acc' _ _ op hop; simp at hop
  | cons op₀ rest ih =>
    intro acc acc' hnd h op hop
    rw [List.foldlM_cons] at h
    rcases exceptBind_ok _ _ _ h with ⟨acc₁, hstep, hrest⟩
    rw [List.map_cons, List.nodup_cons] at hnd
    rcases List.mem_cons.mp hop with rfl | hmem
    · rcases hoardNewStep_records hstep with ⟨pile₁, hl₁, hn₁, hc₁, hm₁, hd₁⟩
      have hne : ∀ o ∈ rest, opMapKey o ≠ ((opMapKey op).1, (opMapKey op).2) := by
        intro o ho hc
        have hc2 : opMapKey o = opMapKey op := hc
        exact hnd.1 (hc2 ▸ List.mem_map.mpr ⟨o, ho, rfl⟩)
      rcases hoardNewFold_preserve rest acc₁ acc' hrest (opMapKey op).1
          (opMapKey op).2 hne pile₁ hl₁ with
        ⟨pile', hl', hcr, hmo, hun, hde⟩
      refine ⟨pile', hl', ?_, ?_, ?_, ?_⟩
      · intro f hf c hc
        cases hf
        exact hun.trans (hn₁ f rfl c hc)
      · intro f hf c hc
        cases hf
        exact hcr.trans (hc₁ f rfl c hc)
      · intro f hf c hc
        cases hf
        exact hmo.trans (hm₁ f rfl c hc)
      · intro f hf
        cases hf
        exact hde.trans (hd₁ f rfl)
    · exact ih acc₁ acc' hnd.2 hrest op hmem

lemma hoardNew_inv {direction : Direction} {ops : List ItemOperation}
    {h : HoardV2} (hok : hoardNew direction ops = .ok h) :
    ∃ inner, hoardNewFold direction ops = .ok inner ∧
      (∀ key, h.pileByKey key = lookupPileS inner key) ∧
      h.piles = inner.map Prod.snd := by
  unfold hoardNew at hok
  rcases hfold : hoardNewFold direction ops with e | inner
  · rw [hfold] at hok
    exact absurd hok (by simp [Except.map])
  · rw [hfold] at hok
    have hpack : h = (if inner.length == 1 && (lookupPileS inner "").isSome then
        HoardV2.Anonymous ((lookupPileS inner "").getD PileV2.defaultPile)
      else HoardV2.Named inner) := by
      simpa [Except.map] using hok.symm
    refine ⟨inner, rfl, ?_⟩
    by_cases hcond : (inner.length == 1 && (lookupPileS inner "").isSome) = true
    · rw [if_pos hcond] at hpack
      rcases Bool.and_eq_true_iff.mp hcond with ⟨hlen, hsome⟩
      have hlen1 : inner.length = 1 := by simpa using hlen
      rcases List.length_eq_one.mp hlen1 with ⟨kv, rfl⟩
      have hkey : kv.1 = "" := by
        rcases hkv : (kv.1 == "") with _ | _
        · rw [lookupPileS, mapGet_cons, if_neg (by simp [hkv])] at hsome
          simp [mapGet] at hsome
        · simpa using hkv
      have hlookup : lookupPileS [kv] "" = some kv.2 := by
        rw [lookupPileS, mapGet_cons, if_pos (by simp [hkey])]
      rw [hlookup] at hpack
      subst hpack
      constructor
      · intro key
        by_cases hk : key = ""
        · subst hk
          rw [hlookup]
          rfl
        · have : lookupPileS [kv] key = none := by
            rw [lookupPileS, mapGet_cons,
              if_neg (by simp [hkey]; exact fun hc => hk hc.symm)]
            rfl
          rw [this]
          simp [HoardV2.pileByKey, hk]
      · rfl
    · rw [if_neg hcond] at hpack
      subst hpack
      exact ⟨fun key => rfl, rfl⟩

lemma mapGet_of_mem_nodup {κ β : Type} [BEq κ] [LawfulBEq κ]
    (l : List (κ × β)) (kv : κ × β) (hnd : (l.map Prod.fst).Nodup)
    (hmem : kv ∈ l) : mapGet l kv.1 = some kv.2 := by
  induction l with
  | nil => simp at hmem
  | cons kv₀ t ih =>
    rw [List.map_cons, List.nodup_cons] at hnd
    rcases List.mem_cons.mp hmem with rfl | hmem'
    · rw [mapGet_cons, if_pos (by simp)]
    · have hne : (kv₀.1 == kv.1) = false := by
        simp only [beq_eq_false_iff_ne]
        intro hc
        exact hnd.1 (hc ▸ List.mem_map.mpr ⟨kv, hmem', rfl⟩)
      rw [mapGet_cons, if_neg (by simp [hne])]
      exact ih hnd.2 hmem'

lemma kindAt_of_mem (ops : List ItemOperation)
    (hcons : ∀ o1 ∈ ops, ∀ o2 ∈ ops, opMapKey o1 = opMapKey o2 → o1.kind = o2.kind)
    (op : ItemOperation) (hop : op ∈ ops) :
    kindAt ops (opMapKey op) = some op.kind := by
  unfold kindAt
  rcases hf : ops.find? (fun o => decide (opMapKey o = opMapKey op)) with _ | o'
  · exfalso
    have := List.find?_eq_none.mp hf op hop
    simp at this
  · have hkeys := List.find?_some hf
    have hmem := List.mem_of_find?_eq_some hf
    have : opMapKey o' = opMapKey op := of_decide_eq_true hkeys
    simp only [Option.map_some']
    rw [hcons o' hmem op hop this]

lemma hoardNewStep_shape {direction : Direction}
    {acc acc' : List (String × PileV2)} {op : ItemOperation}
    (h : hoardNewStep direction acc op = .ok acc') :
    ∃ g : PileV2 → PileV2,
      acc' = modifyPileS (getOrCreatePileS acc op.opFile.pileName)
        op.opFile.pileName g := by
  cases op with
  | Create f =>
    rcases hoardNewStep_create_inv h with ⟨c, _, hacc⟩
    exact ⟨_, hacc⟩
  | Modify f =>
    rcases hoardNewStep_modify_inv h with ⟨c, _, hacc⟩
    exact ⟨_, hacc⟩
  | Delete f =>
    exact ⟨_, hoardNewStep_delete_inv h⟩
  | Nothing f =>
    rcases hoardNewStep_nothing_inv h with ⟨c, _, hacc⟩
    exact ⟨_, hacc⟩

lemma hoardNewFold_keys_nodup {direction : Direction} :
    ∀ (ops : List ItemOperation) (acc acc' : List (String × PileV2)),
      List.foldlM (hoardNewStep direction) acc ops = .ok acc' →
      (acc.map Prod.fst).Nodup → (acc'.map Prod.fst).Nodup := by
  intro ops
  induction ops with
  | nil =>
    intro acc acc' h hnd
    simp only [List.foldlM_nil] at h
    have hacc : acc = acc' := by simpa [pure, Except.pure] using h
    exact hacc ▸ hnd
  | cons op rest ih =>
    intro acc acc' h hnd
    rw [List.foldlM_cons] at h
    rcases exceptBind_ok _ _ _ h with ⟨acc₁, hstep, hrest⟩
    rcases hoardNewStep_shape hstep with ⟨g, rfl⟩
    exact ih _ acc' hrest (adjustInsert_keys_nodup _ _ _ _ hnd)

lemma hoardNewStep_kinds {direction : Direction} {ops : List ItemOperation}
    (hcons : ∀ o1 ∈ ops, ∀ o2 ∈ ops, opMapKey o1 = opMapKey o2 → o1.kind = o2.kind)
    {acc acc' : List (String × PileV2)} {op : ItemOperation} (hop : op ∈ ops)
    (h : hoardNewStep direction acc op = .ok acc')
    (hInv : HoardNewInv ops acc) : HoardNewInv ops acc' := by
  have hkind := kindAt_of_mem ops hcons op hop
  have main : ∀ (g : PileV2 → PileV2),
      (∀ q r, ((g q).created r).isSome →
        (q.created r).isSome ∨ (r = op.opFile.relPath ∧ op.kind = .create)) →
      (∀ q r, ((g q).modified r).isSome →
        (q.modified r).isSome ∨ (r = op.opFile.relPath ∧ op.kind = .modify)) →
      (∀ q r, ((g q).unmodified r).isSome →
        (q.unmodified r).isSome ∨ (r = op.opFile.relPath ∧ op.kind = .nothing)) →
      (∀ q r, (g q).deleted r = true →
        q.deleted r = true ∨ (r = op.opFile.relPath ∧ op.kind = .delete)) →
      acc' = modifyPileS (getOrCreatePileS acc op.opFile.pileName)
        op.opFile.pileName g →
      HoardNewInv ops acc' := by
    intro g hgc hgm hgu hgd hacc
    subst hacc
    intro key pile hl r
    by_cases hkey : key = pileMapKey op.opFile.pileName
    · subst hkey
      rw [lookupPileS_write_self] at hl
      have hpile : pile =
          g ((lookupPileS acc (pileMapKey op.opFile.pileName)).getD
            PileV2.defaultPile) := (Option.some.inj hl).symm
      subst hpile
      have hbase : ∀ r',
          (((lookupPileS acc (pileMapKey op.opFile.pileName)).getD
              PileV2.defaultPile).created r').isSome →
            kindAt ops (pileMapKey op.opFile.pileName, r') = some .create := by
        intro r' hs
        rcases hlb : lookupPileS acc (pileMapKey op.opFile.pileName) with _ | pile₀
        · rw [hlb] at hs
          simp [PileV2.defaultPile] at hs
        · rw [hlb] at hs
          exact (hInv _ pile₀ hlb r').1 hs
      have hbasem : ∀ r',
          (((lookupPileS acc (pileMapKey op.opFile.pileName)).getD
              PileV2.defaultPile).modified r').isSome →
            kindAt ops (pileMapKey op.opFile.pileName, r') = some .modify := by
        intro r' hs
        rcases hlb : lookupPileS acc (pileMapKey op.opFile.pileName) with _ | pile₀
        · rw [hlb] at hs
          simp [PileV2.defaultPile] at hs
        · rw [hlb] at hs
          exact ((hInv _ pile₀ hlb r').2).1 hs
      have hbaseu : ∀ r',
          (((lookupPileS acc (pileMapKey op.opFile.pileName)).getD
              PileV2.defaultPile).unmodified r').isSome →
            kindAt ops (pileMapKey op.opFile.pileName, r') = some .nothing := by
        intro r' hs
        rcases hlb : lookupPileS acc (pileMapKey op.opFile.pileName) with _ | pile₀
        · rw [hlb] at hs
          simp [PileV2.defaultPile] at hs
        · rw [hlb] at hs
          exact ((hInv _ pile₀ hlb r').2).2.1 hs
      have hbased : ∀ r',
          ((lookupPileS acc (pileMapKey op.opFile.pileName)).getD
              PileV2.defaultPile).deleted r' = true →
            kindAt ops (pileMapKey op.opFile.pileName, r') = some .delete := by
        intro r' hs
        rcases hlb : lookupPileS acc (pileMapKey op.opFile.pileName) with _ | pile₀
        · rw [hlb] at hs
          simp [PileV2.defaultPile] at hs
        · rw [hlb] at hs
          exact ((hInv _ pile₀ hlb r').2).2.2 hs
      refine ⟨?_, ?_, ?_, ?_⟩
      · intro hs
        rcases hgc _ r hs with hb | ⟨rfl, hk⟩
        · exact hbase r hb
        · have : (pileMapKey op.opFile.pileName, op.opFile.relPath) =
              opMapKey op := rfl
          rw [this, hkind, hk]
      · intro hs
        rcases hgm _ r hs with hb | ⟨rfl, hk⟩
        · exact hbasem r hb
        · have : (pileMapKey op.opFile.pileName, op.opFile.relPath) =
              opMapKey op := rfl
          rw [this, hkind, hk]
      · intro hs
        rcases hgu _ r hs with hb | ⟨rfl, hk⟩
        · exact hbaseu r hb
        · have : (pileMapKey op.opFile.pileName, op.opFile.relPath) =
              opMapKey op := rfl
          rw [this, hkind, hk]
      · intro hs
        rcases hgd _ r hs with hb | ⟨rfl, hk⟩
        · exact hbased r hb
        · have : (pileMapKey op.opFile.pileName, op.opFile.relPath) =
              opMapKey op := rfl
          rw [this, hkind, hk]
    · rw [lookupPileS_write_ne _ _ _ _ hkey] at hl
      exact hInv key pile hl r
  cases op with
  | Create f =>
    rcases hoardNewStep_create_inv h with ⟨c, _, hacc⟩
    refine main _ ?_ ?_ ?_ ?_ hacc
    · intro q r hs
      by_cases hr : r = f.relPath
      · exact Or.inr ⟨hr, rfl⟩
      · have hs2 : (if r = f.relPath then some c else q.created r).isSome = true := hs
        rw [if_neg hr] at hs2
        exact Or.inl hs2
    · exact fun q r hs => Or.inl hs
    · exact fun q r hs => Or.inl hs
    · exact fun q r hs => Or.inl hs
  | Modify f =>
    rcases hoardNewStep_modify_inv h with ⟨c, _, hacc⟩
    refine main _ ?_ ?_ ?_ ?_ hacc
    · exact fun q r hs => Or.inl hs
    · intro q r hs
      by_cases hr : r = f.relPath
      · exact Or.inr ⟨hr, rfl⟩
      · have hs2 : (if r = f.relPath then some c else q.modified r).isSome = true := hs
        rw [if_neg hr] at hs2
        exact Or.inl hs2
    · exact fun q r hs => Or.inl hs
    · exact fun q r hs => Or.inl hs
  | Delete f =>
    have hacc := hoardNewStep_delete_inv h
    refine main _ ?_ ?_ ?_ ?_ hacc
    · exact fun q r hs => Or.inl hs
    · exact fun q r hs => Or.inl hs
    · exact fun q r hs => Or.inl hs
    · intro q r hs
      by_cases hr : r = f.relPath
      · exact Or.inr ⟨hr, rfl⟩
      · have hs2 : (if r = f.relPath then true else q.deleted r) = true := hs
        rw [if_neg hr] at hs2
        exact Or.inl hs2
  | Nothing f =>
    rcases hoardNewStep_nothing_inv h with ⟨c, _, hacc⟩
    refine main _ ?_ ?_ ?_ ?_ hacc
    · exact fun q r hs => Or.inl hs
    · exact fun q r hs => Or.inl hs
    · intro q r hs
      by_cases hr : r = f.relPath
      · exact Or.inr ⟨hr, rfl⟩
      · have hs2 : (if r = f.relPath then some c else q.unmodified r).isSome = true := hs
        rw [if_neg hr] at hs2
        exact Or.inl hs2
    · exact fun q r hs => Or.inl hs

lemma hoardNewFold_kinds {direction : Direction} {ops : List ItemOperation}
    (hcons : ∀ o1 ∈ ops, ∀ o2 ∈ ops, opMapKey o1 = opMapKey o2 → o1.kind = o2.kind) :
    ∀ (rest : List ItemOperation) (acc acc' : List (String × PileV2)),
      (∀ o ∈ rest, o ∈ ops) →
      List.foldlM (hoardNewStep direction) acc rest = .ok acc' →
      HoardNewInv ops acc → HoardNewInv ops acc' := by
  intro rest
  induction rest with
  | nil =>
    intro acc acc' _ h hInv
    simp only [List.foldlM_nil] at h
    have hacc : acc = acc' := by simpa [pure, Except.pure] using h
    exact hacc ▸ hInv
  | cons op rest' ih =>
    intro acc acc' hsub h hInv
    rw [List.foldlM_cons] at h
    rcases exceptBind_ok _ _ _ h with ⟨acc₁, hstep, hrest⟩
    exact ih acc₁ acc' (fun o ho => hsub o (List.mem_cons_of_mem op ho)) hrest
      (hoardNewStep_kinds hcons (hsub op (List.mem_cons_self op rest')) hstep hInv)

/-! ### Facts about the `from_v1` fold -/

lemma lookupPile_write_self (files : List (Option String × PileV2))
    (pn : Option String) (g : PileV2 → PileV2) :
    lookupPile (modifyPile (getOrCreatePile files pn) pn g) pn =
      some (g ((lookupPile files pn).getD PileV2.defaultPile)) := by
  unfold lookupPile modifyPile getOrCreatePile
  exact mapGet_adjustInsert_self _ _ _ _

lemma lookupPile_write_ne (files : List (Option String × PileV2))
    (pn : Option String) (g : PileV2 → PileV2) (name : Option String)
    (hne : name ≠ pn) :
    lookupPile (modifyPile (getOrCreatePile files pn) pn g) name =
      lookupPile files name := by
  unfold lookupPile modifyPile getOrCreatePile
  exact mapGet_adjustInsert_ne _ _ _ _ _ hne

lemma fromV1Step_theseFiles (st : FromV1Loop) (pn : Option String)
    (rel : RelPath) (c : Checksum) :
    (fromV1Step st (pn, rel, c)).theseFiles = st.theseFiles ++ [(pn, rel)] := rfl

lemma fromV1Step_fileChecksums (st : FromV1Loop) (pn : Option String)
    (rel : RelPath) (c : Checksum) :
    (fromV1Step st (pn, rel, c)).fileChecksums =
      fun k => if k = (pn, rel) then some (some c) else st.fileChecksums k := rfl

lemma fromV1Step_inv (st : FromV1Loop) (pn : Option String) (rel : RelPath)
    (c : Checksum) (hkey : (pn, rel) ∉ st.theseFiles) (hInv : FromV1Inv st) :
    FromV1Inv (fromV1Step st (pn, rel, c)) := by
  have htf : (fromV1Step st (pn, rel, c)).theseFiles =
      st.theseFiles ++ [(pn, rel)] := rfl
  have main : ∀ (g : PileV2 → PileV2),
      (∀ (q : PileV2) (r : RelPath), r ≠ rel →
        (g q).created r = q.created r ∧ (g q).modified r = q.modified r ∧
        (g q).unmodified r = q.unmodified r) →
      (∀ q : PileV2, (g q).deleted = q.deleted) →
      (∀ q : PileV2,
        ((g q).created rel = some c ∧ (g q).modified rel = q.modified rel ∧
          (g q).unmodified rel = q.unmodified rel) ∨
        ((g q).modified rel = some c ∧ (g q).created rel = q.created rel ∧
          (g q).unmodified rel = q.unmodified rel) ∨
        ((g q).unmodified rel = some c ∧ (g q).created rel = q.created rel ∧
          (g q).modified rel = q.modified rel)) →
      (fromV1Step st (pn, rel, c)).files =
        modifyPile (getOrCreatePile st.files pn) pn g →
      FromV1Inv (fromV1Step st (pn, rel, c)) := by
    intro g hgOther hgDel hgAt hfiles
    intro name pile hl r
    rw [hfiles] at hl
    by_cases hname : name = pn
    · subst hname
      rw [lookupPile_write_self] at hl
      have hpile : pile =
          g ((lookupPile st.files name).getD PileV2.defaultPile) :=
        (Option.some.inj hl).symm
      subst hpile
      by_cases hr : r = rel
      · subst hr
        have hbase :
            ((lookupPile st.files name).getD PileV2.defaultPile).created r = none ∧
            ((lookupPile st.files name).getD PileV2.defaultPile).modified r = none ∧
            ((lookupPile st.files name).getD PileV2.defaultPile).unmodified r = none ∧
            ((lookupPile st.files name).getD PileV2.defaultPile).deleted r = false := by
          rcases hlb : lookupPile st.files name with _ | pile₀
          · simp [PileV2.defaultPile]
          · have h0 := hInv name pile₀ hlb r
            simp only [Option.getD_some]
            refine ⟨?_, ?_, ?_, h0.2.2.1⟩
            · rcases hc0 : pile₀.created r with _ | v
              · rfl
              · exact absurd (h0.2.2.2 (Or.inl (by simp [hc0]))) hkey
            · rcases hc0 : pile₀.modified r with _ | v
              · rfl
              · exact absurd (h0.2.2.2 (Or.inr (Or.inl (by simp [hc0])))) hkey
            · rcases hc0 : pile₀.unmodified r with _ | v
              · rfl
              · exact absurd (h0.2.2.2 (Or.inr (Or.inr (by simp [hc0])))) hkey
        have hdel : (g ((lookupPile st.files name).getD PileV2.defaultPile)).deleted r
            = false := by
          rw [hgDel]
          exact hbase.2.2.2
        have hmem2 : (name, r) ∈ (fromV1Step st (name, r, c)).theseFiles := by
          rw [fromV1Step_theseFiles]
          exact List.mem_append_right _ (List.mem_singleton_self _)
        rcases hgAt ((lookupPile st.files name).getD PileV2.defaultPile) with
          ⟨ha, hb, hcq⟩ | ⟨ha, hb, hcq⟩ | ⟨ha, hb, hcq⟩
        · refine ⟨fun _ => ⟨?_, ?_⟩, fun hs => ?_, hdel, fun _ => hmem2⟩
          · rw [hb]; exact hbase.2.1
          · rw [hcq]; exact hbase.2.2.1
          · rw [hb, hbase.2.1] at hs; simp at hs
        · refine ⟨fun hs => ?_, fun _ => ?_, hdel, fun _ => hmem2⟩
          · rw [hb, hbase.1] at hs; simp at hs
          · rw [hcq]; exact hbase.2.2.1
        · refine ⟨fun hs => ?_, fun hs => ?_, hdel, fun _ => hmem2⟩
          · rw [hb, hbase.1] at hs; simp at hs
          · rw [hcq, hbase.2.1] at hs; simp at hs
      · have hflds := hgOther ((lookupPile st.files name).getD PileV2.defaultPile) r hr
        have hdel : (g ((lookupPile st.files name).getD PileV2.defaultPile)).deleted r
            = ((lookupPile st.files name).getD PileV2.defaultPile).deleted r := by
          rw [hgDel]
        rcases hlb : lookupPile st.files name with _ | pile₀
        · rw [hlb] at hflds hdel
          simp only [Option.getD_none] at hflds hdel ⊢
          refine ⟨fun hs => ?_, fun hs => ?_, ?_, fun hs => ?_⟩
          · rw [hflds.1] at hs; simp [PileV2.defaultPile] at hs
          · rw [hflds.2.1] at hs; simp [PileV2.defaultPile] at hs
          · rw [hdel]; rfl
          · exfalso
            rcases hs with hs | hs | hs
            · rw [hflds.1] at hs; simp [PileV2.defaultPile] at hs
            · rw [hflds.2.1] at hs; simp [PileV2.defaultPile] at hs
            · rw [hflds.2.2] at hs; simp [PileV2.defaultPile] at hs
        · rw [hlb] at hflds hdel
          simp only [Option.getD_some] at hflds hdel ⊢
          have h0 := hInv name pile₀ hlb r
          refine ⟨fun hs => ?_, fun hs => ?_, ?_, fun hs => ?_⟩
          · rw [hflds.1] at hs
            rw [hflds.2.1, hflds.2.2]
            exact h0.1 hs
          · rw [hflds.2.1] at hs
            rw [hflds.2.2]
            exact h0.2.1 hs
          · rw [hdel]; exact h0.2.2.1
          · rw [htf]
            apply List.mem_append_left
            apply h0.2.2.2
            rcases hs with hs | hs | hs
            · rw [hflds.1] at hs; exact Or.inl hs
            · rw [hflds.2.1] at hs; exact Or.inr (Or.inl hs)
            · rw [hflds.2.2] at hs; exact Or.inr (Or.inr hs)
    · rw [lookupPile_write_ne _ _ _ _ hname] at hl
      have h0 := hInv name pile hl r
      refine ⟨h0.1, h0.2.1, h0.2.2.1, fun hs => ?_⟩
      rw [htf]
      exact List.mem_append_left _ (h0.2.2.2 hs)
  rcases hfc : st.fileChecksums (pn, rel) with _ | oc
  · refine main
      (fun pile => { pile with created :=
        fun r => if r = rel then some c else pile.created r })
      (fun q r hr => ⟨if_neg hr, rfl, rfl⟩) (fun q => rfl)
      (fun q => Or.inl ⟨if_pos rfl, rfl, rfl⟩) ?_
    simp only [fromV1Step, hfc]
  · rcases oc with _ | oldC
    · refine main
        (fun pile => { pile with created :=
          fun r => if r = rel then some c else pile.created r })
        (fun q r hr => ⟨if_neg hr, rfl, rfl⟩) (fun q => rfl)
        (fun q => Or.inl ⟨if_pos rfl, rfl, rfl⟩) ?_
      simp only [fromV1Step, hfc]
    · by_cases heq : oldC = c
      · refine main
          (fun pile => { pile with unmodified :=
            fun r => if r = rel then some c else pile.unmodified r })
          (fun q r hr => ⟨rfl, rfl, if_neg hr⟩) (fun q => rfl)
          (fun q => Or.inr (Or.inr ⟨if_pos rfl, rfl, rfl⟩)) ?_
        simp only [fromV1Step, hfc, if_pos heq]
      · refine main
          (fun pile => { pile with modified :=
            fun r => if r = rel then some c else pile.modified r })
          (fun q r hr => ⟨rfl, if_neg hr, rfl⟩) (fun q => rfl)
          (fun q => Or.inr (Or.inl ⟨if_pos rfl, rfl, rfl⟩)) ?_
        simp only [fromV1Step, hfc, if_neg heq]

lemma fromV1Step_files_shape (st : FromV1Loop) (pn : Option String)
    (rel : RelPath) (c : Checksum) :
    ∃ g : PileV2 → PileV2,
      (fromV1Step st (pn, rel, c)).files =
        modifyPile (getOrCreatePile st.files pn) pn g := by
  rcases hfc : st.fileChecksums (pn, rel) with _ | oc
  · exact ⟨(fun pile => { pile with
        created := fun r => if r = rel then some c else pile.created r }),
      by simp only [fromV1Step, hfc]⟩
  · rcases oc with _ | oldC
    · exact ⟨(fun pile => { pile with
          created := fun r => if r = rel then some c else pile.created r }),
        by simp only [fromV1Step, hfc]⟩
    · by_cases heq : oldC = c
      · exact ⟨(fun pile => { pile with
            unmodified := fun r => if r = rel then some c else pile.unmodified r }),
          by simp only [fromV1Step, hfc, if_pos heq]⟩
      · exact ⟨(fun pile => { pile with
            modified := fun r => if r = rel then some c else pile.modified r }),
          by simp only [fromV1Step, hfc, if_neg heq]⟩

lemma fromV1Loop_inv :
    ∀ (entries : List (Option String × RelPath × Checksum)) (st : FromV1Loop),
      (entries.map (fun e => (e.1, e.2.1))).Nodup →
      (∀ e ∈ entries, (e.1, e.2.1) ∉ st.theseFiles) →
      FromV1Inv st →
      FromV1Inv (entries.foldl fromV1Step st) ∧
      (entries.foldl fromV1Step st).theseFiles =
        st.theseFiles ++ entries.map (fun e => (e.1, e.2.1)) := by
  intro entries
  induction entries with
  | nil => intro st _ _ hInv; exact ⟨hInv, by simp⟩
  | cons e rest ih =>
    intro st hnd hnew hInv
    rw [List.map_cons, List.nodup_cons] at hnd
    rcases e with ⟨pn, rel, c⟩
    rw [List.foldl_cons]
    have hkey : (pn, rel) ∉ st.theseFiles := hnew _ (List.mem_cons_self _ _)
    have hstep := fromV1Step_inv st pn rel c hkey hInv
    have htf : (fromV1Step st (pn, rel, c)).theseFiles =
        st.theseFiles ++ [(pn, rel)] := rfl
    have hnew2 : ∀ e' ∈ rest,
        (e'.1, e'.2.1) ∉ (fromV1Step st (pn, rel, c)).theseFiles := by
      intro e' he' hc
      rw [htf] at hc
      rcases List.mem_append.mp hc with hc | hc
      · exact hnew e' (List.mem_cons_of_mem _ he') hc
      · have hc2 := List.mem_singleton.mp hc
        exact hnd.1 (hc2 ▸ List.mem_map.mpr ⟨e', he', rfl⟩)
    rcases ih (fromV1Step st (pn, rel, c)) hnd.2 hnew2 hstep with ⟨hInv2, htf2⟩
    refine ⟨hInv2, ?_⟩
    rw [htf2, htf, List.append_assoc]
    rfl

lemma fromV1Loop_files_nodup :
    ∀ (entries : List (Option String × RelPath × Checksum)) (st : FromV1Loop),
      (st.files.map Prod.fst).Nodup →
      ((entries.foldl fromV1Step st).files.map Prod.fst).Nodup := by
  intro entries
  induction entries with
  | nil => intro st h; exact h
  | cons e rest ih =>
    intro st h
    rcases e with ⟨pn, rel, c⟩
    rw [List.foldl_cons]
    apply ih
    rcases fromV1Step_files_shape st pn rel c with ⟨g, hshape⟩
    rw [hshape]
    unfold modifyPile getOrCreatePile
    exact adjustInsert_keys_nodup _ _ _ _ h

lemma groupFold_get :
    ∀ (dels : List PileKey) (acc : List (Option String × List RelPath))
      (name : Option String),
      mapGet (dels.foldl groupStep acc) name =
        if mapGet acc name = none ∧
            (dels.filter (fun kv => kv.1 == name)).map (fun kv => kv.2) = []
        then none
        else some ((mapGet acc name).getD [] ++
          (dels.filter (fun kv => kv.1 == name)).map (fun kv => kv.2)) := by
  intro dels
  induction dels with
  | nil =>
    intro acc name
    rcases h : mapGet acc name with _ | g
    · simp [h]
    · simp [h]
  | cons d rest ih =>
    intro acc name
    rw [List.foldl_cons, ih]
    by_cases hname : d.1 = name
    · subst hname
      have hacc1 : mapGet (groupStep acc d) d.1 =
          some ((mapGet acc d.1).getD [] ++ [d.2]) := by
        unfold groupStep
        exact mapGet_adjustInsert_self _ _ _ _
      have hfilter : List.filter (fun kv => kv.1 == d.1) (d :: rest) =
          d :: List.filter (fun kv => kv.1 == d.1) rest := by
        simp [List.filter_cons]
      rw [hacc1, hfilter, List.map_cons]
      rw [if_neg (by simp), if_neg (by simp)]
      simp [List.append_assoc]
    · have hbeq : (d.1 == name) = false := by simpa using hname
      have hacc1 : mapGet (groupStep acc d) name = mapGet acc name := by
        unfold groupStep
        exact mapGet_adjustInsert_ne _ _ _ _ _ (fun hc => hname hc.symm)
      have hfilter : List.filter (fun kv => kv.1 == name) (d :: rest) =
          List.filter (fun kv => kv.1 == name) rest := by
        simp [List.filter_cons, hbeq]
      rw [hacc1, hfilter]

lemma groupFold_keys_nodup :
    ∀ (dels : List PileKey) (acc : List (Option String × List RelPath)),
      (acc.map Prod.fst).Nodup →
      ((dels.foldl groupStep acc).map Prod.fst).Nodup := by
  intro dels
  induction dels with
  | nil => intro acc h; exact h
  | cons d rest ih =>
    intro acc h
    rw [List.foldl_cons]
    apply ih
    unfold groupStep
    exact adjustInsert_keys_nodup _ _ _ _ h

lemma deletedFold_lookup :
    ∀ (groups : List (Option String × List RelPath))
      (files : List (Option String × PileV2)) (name : Option String),
      (groups.map Prod.fst).Nodup →
      lookupPile (groups.foldl deletedApply files) name =
        match mapGet groups name with
        | some rels => some ({ (lookupPile files name).getD PileV2.defaultPile with
            deleted := fun r => rels.contains r })
        | none => lookupPile files name := by
  intro groups
  induction groups with
  | nil =>
    intro files name _
    simp [mapGet]
  | cons grp rest ih =>
    intro files name hnd
    rw [List.map_cons, List.nodup_cons] at hnd
    rw [List.foldl_cons, ih _ _ hnd.2]
    by_cases hname : grp.1 = name
    · subst hname
      have hg : mapGet (grp :: rest) grp.1 = some grp.2 := by
        rw [mapGet_cons, if_pos (by simp)]
      have hrest : mapGet rest grp.1 = none := by
        rcases hm : mapGet rest grp.1 with _ | v
        · rfl
        · exact absurd (mapGet_key_mem _ _ _ hm) hnd.1
      rw [hg, hrest]
      unfold deletedApply
      rw [lookupPile_write_self]
    · have hg : mapGet (grp :: rest) name = mapGet rest name := by
        rw [mapGet_cons, if_neg (by simp [hname])]
      have hl : lookupPile (deletedApply files grp) name = lookupPile files name := by
        unfold deletedApply
        exact lookupPile_write_ne _ _ _ _ (fun hc => hname hc.symm)
      rw [hg]
      rcases hm : mapGet rest name with _ | rels
      · simp [hl]
      · simp [hl]

lemma deletedFold_keys_nodup :
    ∀ (groups : List (Option String × List RelPath))
      (files : List (Option String × PileV2)),
      (files.map Prod.fst).Nodup →
      ((groups.foldl deletedApply files).map Prod.fst).Nodup := by
  intro groups
  induction groups with
  | nil => intro files h; exact h
  | cons grp rest ih =>
    intro files h
    rw [List.foldl_cons]
    apply ih
    unfold deletedApply modifyPile getOrCreatePile
    exact adjustInsert_keys_nodup _ _ _ _ h

lemma mem_filter_map_snd (dels : List PileKey) (name : Option String)
    (r : RelPath) :
    r ∈ (dels.filter (fun kv => kv.1 == name)).map (fun kv => kv.2) ↔
      (name, r) ∈ dels := by
  constructor
  · intro h
    rcases List.mem_map.mp h with ⟨kv, hkv, rfl⟩
    rcases List.mem_filter.mp hkv with ⟨hmem, hbeq⟩
    have hk : kv.1 = name := by simpa using hbeq
    have : (name, kv.2) = kv := by rw [← hk]
    rw [this]
    exact hmem
  · intro h
    exact List.mem_map.mpr ⟨(name, r), List.mem_filter.mpr ⟨h, by simp⟩, rfl⟩

/-- **C10.** When building a v2 operation log from the current filesystem
state (`Hoard::new` folding over `OperationIter`), a file whose operation
is `Nothing` (unchanged) is recorded in `unmodified` with its system-side
checksum regardless of direction, whereas files with `Create` or `Modify`
operations are recorded with the system-side checksum under `Backup` and
the hoard-side checksum under `Restore`.  (Stated for operation streams
that touch each `(pile key, relative path)` slot at most once, which the
single-snapshot enumeration guarantees.) -/
theorem hoard_new_checksum_sources :
    ∀ (direction : Direction) (ops : List ItemOperation) (h : HoardV2),
      (ops.map opMapKey).Nodup →
      hoardNew direction ops = .ok h →
      ∀ f : HoardItem,
        (ItemOperation.Nothing f ∈ ops →
          ∀ c, f.systemChecksum = some c →
          ∃ pile, h.pileByKey (pileMapKey f.pileName) = some pile ∧
            pile.unmodified f.relPath = some c) ∧
        (ItemOperation.Create f ∈ ops →
          ∀ c, directionChecksum direction f = some c →
          ∃ pile, h.pileByKey (pileMapKey f.pileName) = some pile ∧
            pile.created f.relPath = some c) ∧
        (ItemOperation.Modify f ∈ ops →
          ∀ c, directionChecksum direction f = some c →
          ∃ pile, h.pileByKey (pileMapKey f.pileName) = some pile ∧
            pile.modified f.relPath = some c) := by
  intro direction ops h hnd hok f
  rcases hoardNew_inv hok with ⟨inner, hfold, hby, _⟩
  refine ⟨?_, ?_, ?_⟩
  · intro hmem c hc
    rcases hoardNewFold_records ops [] inner hnd hfold _ hmem with
      ⟨pile, hl, hn, _, _, _⟩
    exact ⟨pile, by rw [hby]; exact hl, hn f rfl c hc⟩
  · intro hmem c hc
    rcases hoardNewFold_records ops [] inner hnd hfold _ hmem with
      ⟨pile, hl, _, hcr, _, _⟩
    exact ⟨pile, by rw [hby]; exact hl, hcr f rfl c hc⟩
  · intro hmem c hc
    rcases hoardNewFold_records ops [] inner hnd hfold _ hmem with
      ⟨pile, hl, _, _, hm, _⟩
    exact ⟨pile, by rw [hby]; exact hl, hm f rfl c hc⟩

/-- **C6 (amended).** Serializing a v2 operation log and deserializing the
result restores the `timestamp`, `direction`, `hoard` name and `files`
contents (including every `Pile` and `Checksum`) exactly, but resets the
`#[serde(skip, default)]` field `hoards_root` to its default
`PathBuf::new()`.  Hence the round trip yields a value equal to the
original (under the derived `PartialEq`, which compares all fields) if and
only if the original's `hoards_root` is the default. -/
theorem v2_serde_roundtrip_partial :
    ∀ op : OperationV2,
      deserializeV2 (serializeV2 op) = { op with hoardsRoot := "" } ∧
      (deserializeV2 (serializeV2 op) = op ↔ op.hoardsRoot = "") := by
  intro op
  refine ⟨rfl, ?_, ?_⟩
  · intro h
    have h2 := congrArg OperationV2.hoardsRoot h
    exact h2.symm.trans rfl
  · intro h
    rcases op with ⟨ts, dir, hd, fl, hr⟩
    have h3 : hr = "" := h
    subst h3
    rfl

/-- **C6 counterexample.** A v2 operation value as produced by
`OperationV2::new` carries a non-empty `hoards_root`; serializing and
deserializing it does *not* yield an equal value, because `hoards_root` is
`#[serde(skip, default)]` while the derived `PartialEq` compares it. -/
theorem v2_serde_roundtrip_counterexample :
    deserializeV2 (serializeV2
        ⟨0, Direction.Backup, "anon_txt", HoardV2.Anonymous PileV2.defaultPile,
          "/home/user/.local/share/hoard/hoards"⟩) ≠
      ⟨0, Direction.Backup, "anon_txt", HoardV2.Anonymous PileV2.defaultPile,
        "/home/user/.local/share/hoard/hoards"⟩ := by
  intro h
  have h2 := congrArg OperationV2.hoardsRoot h
  exact absurd h2 (by decide)

/-- **C4 (code bug).** `from_v1` never writes `None` back into
`file_checksums` for the paths it puts into `deleted` (the claim — and the
function's own doc comment, which requires the carried checksum to be
`None` for files that do not exist — says it must).  Consequently, after
upgrading the log sequence `{p → aa}`, `{}` (p deleted), `{p → aa}`
(p recreated with the same checksum), the carry still holds
`Some(aa)` for `p` after the deletion, and the recreation of `p` is
classified `unmodified` rather than `created`, with `created` empty. -/
theorem from_v1_missing_none_update :
    ((fromV1
        ((fromV1 (⟨fun _ => none, []⟩ : UpgradeCarry)
          ⟨0, true, "h", .Anonymous [("p", "aa")]⟩).2)
        ⟨1, true, "h", .Anonymous []⟩).2.fileChecksums (none, "p") =
      some (some (Checksum.MD5 "aa"))) ∧
    (∃ pile,
      (fromV1
          ((fromV1
            ((fromV1 (⟨fun _ => none, []⟩ : UpgradeCarry)
              ⟨0, true, "h", .Anonymous [("p", "aa")]⟩).2)
            ⟨1, true, "h", .Anonymous []⟩).2)
          ⟨2, true, "h", .Anonymous [("p", "aa")]⟩).1.files =
        HoardV2.Anonymous pile ∧
      pile.unmodified "p" = some (Checksum.MD5 "aa") ∧
      pile.created "p" = none ∧
      pile.modified "p" = none ∧
      pile.deleted "p" = false) := by
  refine ⟨rfl, ⟨_, rfl, rfl, rfl, rfl, rfl⟩⟩

/-- **C7 counterexample.** The claim states that after the first deletion
error no further deletions are performed.  Here deleting the first file
fails (return value `Err((0, e))` as claimed), yet the second file — which
comes after the error — is nevertheless deleted from the filesystem: the
lazy `map(remove_file)` keeps running `remove_file` while the fold merely
stops counting. -/
theorem cleanup_error_counterexample :
    (cleanupDeleteRun
        (fun p => if p = "2024_01_01-00_00_00.000000.log"
          then some "permission denied" else none)
        ["2024_01_01-00_00_00.000000.log", "2024_01_02-00_00_00.000000.log"]
        (fun _ => true)).2 = Except.error (0, "permission denied") ∧
    (fun _ : String => true) "2024_01_02-00_00_00.000000.log" = true ∧
    (cleanupDeleteRun
        (fun p => if p = "2024_01_01-00_00_00.000000.log"
          then some "permission denied" else none)
        ["2024_01_01-00_00_00.000000.log", "2024_01_02-00_00_00.000000.log"]
        (fun _ => true)).1 "2024_01_02-00_00_00.000000.log" = false := by
  refine ⟨rfl, rfl, by decide⟩

lemma groupDeleted_get (dels : List PileKey) (name : Option String) :
    mapGet (groupDeleted dels) name =
      if (dels.filter (fun kv => kv.1 == name)).map (fun kv => kv.2) = []
      then none
      else some ((dels.filter (fun kv => kv.1 == name)).map (fun kv => kv.2)) := by
  unfold groupDeleted
  rw [groupFold_get]
  by_cases hc : (dels.filter (fun kv => kv.1 == name)).map (fun kv => kv.2) = []
  · rw [if_pos ⟨rfl, hc⟩, if_pos hc]
  · rw [if_neg (fun hand => hc hand.2), if_neg hc]
    simp [mapGet]

lemma groupDeleted_mem {dels : List PileKey} {name : Option String}
    {rels : List RelPath} (h : mapGet (groupDeleted dels) name = some rels) :
    ∀ {r : RelPath}, r ∈ rels ↔ (name, r) ∈ dels := by
  intro r
  rw [groupDeleted_get] at h
  by_cases hc : (dels.filter (fun kv => kv.1 == name)).map (fun kv => kv.2) = []
  · rw [if_pos hc] at h
    exact absurd h (by simp)
  · rw [if_neg hc] at h
    have hrels : rels = (dels.filter (fun kv => kv.1 == name)).map (fun kv => kv.2) :=
      (Option.some.inj h).symm
    rw [hrels]
    exact mem_filter_map_snd dels name r

lemma groupDeleted_none {dels : List PileKey} {name : Option String}
    (h : ∀ k ∈ dels, k.1 ≠ name) :
    mapGet (groupDeleted dels) name = none := by
  rw [groupDeleted_get]
  have hfil : dels.filter (fun kv => kv.1 == name) = [] := by
    rw [List.filter_eq_nil_iff]
    intro a ha
    simpa using h a ha
  rw [hfil]
  simp

lemma groupDeleted_none_keys {dels : List PileKey} {name : Option String}
    (h : mapGet (groupDeleted dels) name = none) :
    ∀ k ∈ dels, k.1 ≠ name := by
  rw [groupDeleted_get] at h
  by_cases hc : (dels.filter (fun kv => kv.1 == name)).map (fun kv => kv.2) = []
  · intro k hk hknm
    have hkeq : (name, k.2) = k := by rw [← hknm]
    have : k.2 ∈ (dels.filter (fun kv => kv.1 == name)).map (fun kv => kv.2) :=
      (mem_filter_map_snd dels name k.2).mpr (by rw [hkeq]; exact hk)
    rw [hc] at this
    simp at this
  · rw [if_neg hc] at h
    exact absurd h (by simp)

lemma deletedFold_disjoint (loop : FromV1Loop) (dels : List PileKey)
    (hInv : FromV1Inv loop) (hdels : ∀ k ∈ dels, k ∉ loop.theseFiles) :
    ∀ name pile,
      lookupPile ((groupDeleted dels).foldl deletedApply loop.files) name =
        some pile →
      pile.DisjointKeys := by
  intro name pile hl
  have hnd : ((groupDeleted dels).map Prod.fst).Nodup :=
    groupFold_keys_nodup dels [] List.nodup_nil
  rw [deletedFold_lookup (groupDeleted dels) loop.files name hnd] at hl
  rcases hg : mapGet (groupDeleted dels) name with _ | rels
  · rw [hg] at hl
    have hl2 : lookupPile loop.files name = some pile := hl
    intro r
    have h0 := hInv name pile hl2 r
    exact ⟨fun hc => ⟨(h0.1 hc).1, (h0.1 hc).2, h0.2.2.1⟩,
      fun hm => ⟨h0.2.1 hm, h0.2.2.1⟩, fun _ => h0.2.2.1⟩
  · rw [hg] at hl
    have hl2 : some ({ (lookupPile loop.files name).getD PileV2.defaultPile with
        deleted := fun r => rels.contains r }) = some pile := hl
    have hpe : pile = { (lookupPile loop.files name).getD PileV2.defaultPile with
        deleted := fun r => rels.contains r } := (Option.some.inj hl2).symm
    subst hpe
    intro r
    have hcont : (name, r) ∈ loop.theseFiles → rels.contains r = false := by
      intro htf
      by_cases hmem : r ∈ rels
      · exact absurd htf (hdels _ ((groupDeleted_mem hg).mp hmem))
      · simp [hmem]
    rcases hb : lookupPile loop.files name with _ | p0
    · refine ⟨fun hc => absurd hc (by simp [PileV2.defaultPile]),
        fun hm => absurd hm (by simp [PileV2.defaultPile]),
        fun hu => absurd hu (by simp [PileV2.defaultPile])⟩
    · have h0 := hInv name p0 hb r
      refine ⟨fun hc => ?_, fun hm => ?_, fun hu => ?_⟩
      · have hc2 : (p0.created r).isSome := hc
        exact ⟨(h0.1 hc2).1, (h0.1 hc2).2, hcont (h0.2.2.2 (Or.inl hc2))⟩
      · have hm2 : (p0.modified r).isSome := hm
        exact ⟨h0.2.1 hm2, hcont (h0.2.2.2 (Or.inr (Or.inl hm2)))⟩
      · have hu2 : (p0.unmodified r).isSome := hu
        exact hcont (h0.2.2.2 (Or.inr (Or.inr hu2)))

lemma hoardNewInv_disjoint {ops : List ItemOperation}
    {acc : List (String × PileV2)} (hInv : HoardNewInv ops acc) {key : String}
    {pile : PileV2} (hl : lookupPileS acc key = some pile) :
    pile.DisjointKeys := by
  intro r
  have h0 := hInv key pile hl r
  refine ⟨fun hc => ⟨?_, ?_, ?_⟩, fun hm => ⟨?_, ?_⟩, fun hu => ?_⟩
  · rcases hm : pile.modified r with _ | v
    · rfl
    · have h1 := h0.1 hc
      have h2 := h0.2.1 (by simp [hm])
      rw [h1] at h2
      simp at h2
  · rcases hu : pile.unmodified r with _ | v
    · rfl
    · have h1 := h0.1 hc
      have h2 := h0.2.2.1 (by simp [hu])
      rw [h1] at h2
      simp at h2
  · cases hd : pile.deleted r
    · rfl
    · have h1 := h0.1 hc
      have h2 := h0.2.2.2 hd
      rw [h1] at h2
      simp at h2
  · rcases hu : pile.unmodified r with _ | v
    · rfl
    · have h1 := h0.2.1 hm
      have h2 := h0.2.2.1 (by simp [hu])
      rw [h1] at h2
      simp at h2
  · cases hd : pile.deleted r
    · rfl
    · have h1 := h0.2.1 hm
      have h2 := h0.2.2.2 hd
      rw [h1] at h2
      simp at h2
  · cases hd : pile.deleted r
    · rfl
    · have h1 := h0.2.2.1 hu
      have h2 := h0.2.2.2 hd
      rw [h1] at h2
      simp at h2

/-- **C5.** In every v2 `Pile` value produced by the program — whether
constructed from the current filesystem state during an operation
(`Hoard::new` folding over `OperationIter`) or by the v1→v2 upgrader
(`from_v1`) — the key sets of `created`, `modified`, `unmodified` and
`deleted` are pairwise disjoint.  For `Hoard::new` this is stated for
operation streams that are kind-consistent per `(pile key, relative path)`
slot (the diff iterator yields one operation per file); for `from_v1` it
is stated for v1 logs whose `(pile, path)` entries are distinct (v1 file
maps are maps). -/
theorem v2_pile_disjointness :
    (∀ (direction : Direction) (ops : List ItemOperation) (h : HoardV2),
      (∀ o1 ∈ ops, ∀ o2 ∈ ops, opMapKey o1 = opMapKey o2 → o1.kind = o2.kind) →
      hoardNew direction ops = .ok h →
      ∀ pile ∈ h.piles, pile.DisjointKeys) ∧
    (∀ (carry : UpgradeCarry) (oldV1 : OperationV1),
      (oldV1.allFilesWithChecksums.map (fun e => (e.1, e.2.1))).Nodup →
      ∀ pile ∈ (fromV1 carry oldV1).1.files.piles, pile.DisjointKeys) := by
  constructor
  · intro direction ops h hcons hok
    rcases hoardNew_inv hok with ⟨inner, hfold, hby, hpiles⟩
    have hnd : (inner.map Prod.fst).Nodup :=
      hoardNewFold_keys_nodup ops [] inner hfold (by simp)
    have hInv : HoardNewInv ops inner :=
      hoardNewFold_kinds hcons ops [] inner (fun o ho => ho) hfold
        (fun key pile hl => absurd hl (by simp [lookupPileS, mapGet]))
    intro pile hmem
    rw [hpiles] at hmem
    rcases List.mem_map.mp hmem with ⟨kv, hkv, rfl⟩
    exact hoardNewInv_disjoint hInv (mapGet_of_mem_nodup inner kv hnd hkv)
  · intro carry oldV1 hnd
    have hInv0 : FromV1Inv ⟨[], carry.fileChecksums, []⟩ :=
      fun name pile hl => absurd hl (by simp [lookupPile, mapGet])
    have hloop := fromV1Loop_inv oldV1.allFilesWithChecksums
      ⟨[], carry.fileChecksums, []⟩ hnd
      (fun e he h => absurd h (List.not_mem_nil _)) hInv0
    have hInvL : FromV1Inv (fromV1LoopRun carry oldV1) := hloop.1
    have hdels : ∀ k ∈ fromV1DeletedKeys carry oldV1,
        k ∉ (fromV1LoopRun carry oldV1).theseFiles := by
      intro k hk
      have hk2 : k ∈ carry.fileSet.filter
          (fun k => !((fromV1LoopRun carry oldV1).theseFiles.contains k)) := hk
      have := (List.mem_filter.mp hk2).2
      simpa using this
    have hmain : ∀ name pile,
        lookupPile (fromV1Files carry oldV1) name = some pile →
        pile.DisjointKeys :=
      deletedFold_disjoint (fromV1LoopRun carry oldV1)
        (fromV1DeletedKeys carry oldV1) hInvL hdels
    have hndf : ((fromV1Files carry oldV1).map Prod.fst).Nodup := by
      have h1 : ((fromV1LoopRun carry oldV1).files.map Prod.fst).Nodup :=
        fromV1Loop_files_nodup oldV1.allFilesWithChecksums
          ⟨[], carry.fileChecksums, []⟩ (by exact List.nodup_nil)
      exact deletedFold_keys_nodup
        (groupDeleted (fromV1DeletedKeys carry oldV1)) _ h1
    rcases oldV1 with ⟨ts, ib, hn, hd⟩
    cases hd with
    | Anonymous p =>
      intro pile hmem
      have hmem2 : pile ∈
          [(lookupPile (fromV1Files carry ⟨ts, ib, hn, HoardV1.Anonymous p⟩)
              none).getD
            { PileV2.defaultPile with deleted := fun r => r == "" }] := hmem
      have hpe := List.mem_singleton.mp hmem2
      subst hpe
      rcases hb : lookupPile (fromV1Files carry ⟨ts, ib, hn, HoardV1.Anonymous p⟩)
          none with _ | q
      · intro r
        exact ⟨fun hc => absurd hc (by simp [PileV2.defaultPile]),
          fun hm => absurd hm (by simp [PileV2.defaultPile]),
          fun hu => absurd hu (by simp [PileV2.defaultPile])⟩
      · exact hmain none q hb
    | Named ps =>
      intro pile hmem
      have hmem2 : pile ∈
          ((fromV1Files carry ⟨ts, ib, hn, HoardV1.Named ps⟩).filterMap
            (fun kv => kv.1.map (fun name => (name, kv.2)))).map
            (fun kv => kv.2) := hmem
      rcases List.mem_map.mp hmem2 with ⟨pr, hpr, rfl⟩
      rcases List.mem_filterMap.mp hpr with ⟨kv, hkv, hf⟩
      rcases Option.map_eq_some'.mp hf with ⟨nm, hnm, hpr2⟩
      have hlk : lookupPile (fromV1Files carry ⟨ts, ib, hn, HoardV1.Named ps⟩)
          kv.1 = some kv.2 := mapGet_of_mem_nodup _ kv hndf hkv
      have hsnd : pr.2 = kv.2 := by rw [← hpr2]
      rw [hsnd]
      exact hmain kv.1 kv.2 hlk

/-- Concrete instance of the C10 theorem: in the hoard built by
`Hoard::new` under `Backup` from a single unchanged file with system
checksum `aa`, that file is recorded in `unmodified` with checksum `aa`. -/
theorem hoard_new_checksum_sources_witness :
    ∃ pile, hoardC10.pileByKey "" = some pile ∧
      pile.unmodified "file" = some (Checksum.MD5 "aa") :=
  (hoard_new_checksum_sources Direction.Backup opsC10 hoardC10 (by decide) rfl
    ⟨none, "file", some (Checksum.MD5 "aa"), none⟩).1
    (List.mem_singleton_self _) (Checksum.MD5 "aa") rfl

/-- **C8 (amended).** When `from_v1` processes a v1 log of an anonymous
hoard whose file map is empty, the resulting v2 log preserves the
anonymous shape and `created`, `modified` and `unmodified` are empty — but
the pile's `deleted` set is the single empty relative path *only when the
carried presence set holds no anonymous-pile path*: when it does, the
deleted set is exactly those carried anonymous-pile paths (every carried
path counts as deleted, since the empty log marked nothing as seen). -/
theorem upgrade_empty_anonymous_deleted :
    ∀ (carry : UpgradeCarry) (ts : Int) (ib : Bool) (hn : String),
      ∃ pile,
        (fromV1 carry ⟨ts, ib, hn, HoardV1.Anonymous []⟩).1.files =
          HoardV2.Anonymous pile ∧
        (∀ r, pile.created r = none) ∧
        (∀ r, pile.modified r = none) ∧
        (∀ r, pile.unmodified r = none) ∧
        (∀ r, pile.deleted r = true ↔
          (((none : Option String), r) ∈ carry.fileSet ∨
            (r = "" ∧ ∀ k ∈ carry.fileSet, k.1 ≠ (none : Option String)))) := by
  intro carry ts ib hn
  have hloopF : (fromV1LoopRun carry ⟨ts, ib, hn, HoardV1.Anonymous []⟩).files
      = [] := rfl
  have hdk : fromV1DeletedKeys carry ⟨ts, ib, hn, HoardV1.Anonymous []⟩ =
      carry.fileSet := by
    unfold fromV1DeletedKeys
    exact List.filter_eq_self.mpr (fun a _ => rfl)
  have hff : fromV1Files carry ⟨ts, ib, hn, HoardV1.Anonymous []⟩ =
      (groupDeleted carry.fileSet).foldl deletedApply [] := by
    unfold fromV1Files
    rw [hdk, hloopF]
  have hlook := deletedFold_lookup (groupDeleted carry.fileSet) [] none
    (groupFold_keys_nodup carry.fileSet [] List.nodup_nil)
  have hfe : (fromV1 carry ⟨ts, ib, hn, HoardV1.Anonymous []⟩).1.files =
      HoardV2.Anonymous
        ((lookupPile (fromV1Files carry ⟨ts, ib, hn, HoardV1.Anonymous []⟩)
            none).getD
          { PileV2.defaultPile with deleted := fun r => r == "" }) := rfl
  rcases hg : mapGet (groupDeleted carry.fileSet) none with _ | rels
  · have hlook2 : lookupPile ((groupDeleted carry.fileSet).foldl deletedApply [])
        none = none := by
      rw [hlook, hg]
      exact rfl
    have hall : ∀ k ∈ carry.fileSet, k.1 ≠ (none : Option String) :=
      groupDeleted_none_keys hg
    refine ⟨{ PileV2.defaultPile with deleted := fun r => r == "" },
      ?_, fun r => rfl, fun r => rfl, fun r => rfl, fun r => ?_⟩
    · rw [hfe, hff, hlook2]
      exact rfl
    · constructor
      · intro hd
        have hre : r = "" := by simpa using hd
        exact Or.inr ⟨hre, hall⟩
      · intro hrhs
        rcases hrhs with hmem | ⟨hre, _⟩
        · exact absurd rfl (hall _ hmem)
        · simp [hre]
  · have hlook2 : lookupPile ((groupDeleted carry.fileSet).foldl deletedApply [])
        none = some { PileV2.defaultPile with
          deleted := fun r => rels.contains r } := by
      rw [hlook, hg]
      exact rfl
    refine ⟨{ PileV2.defaultPile with deleted := fun r => rels.contains r },
      ?_, fun r => rfl, fun r => rfl, fun r => rfl, fun r => ?_⟩
    · rw [hfe, hff, hlook2]
      exact rfl
    · constructor
      · intro hd
        have hrel : r ∈ rels := by simpa using hd
        exact Or.inl ((groupDeleted_mem hg).mp hrel)
      · intro hrhs
        rcases hrhs with hmem | ⟨hre, hnone⟩
        · have hrel : r ∈ rels := (groupDeleted_mem hg).mpr hmem
          simpa using hrel
        · exfalso
          exact absurd hg (by rw [groupDeleted_none hnone]; simp)

/-- **C8 counterexample.** A carried presence set holding the
anonymous-pile path `file_1` (and an empty v1 anonymous log): the
resulting pile's `deleted` set contains `file_1` and does *not* contain
the empty relative path, contradicting the claim's single
empty-path `deleted` entry. -/
theorem upgrade_empty_anonymous_counterexample :
    ∃ pile,
      (fromV1
          ⟨fun k => if k = ((none : Option String), ("file_1" : RelPath))
              then some (some (Checksum.MD5 "aa")) else none,
            [((none : Option String), ("file_1" : RelPath))]⟩
          ⟨0, true, "h", HoardV1.Anonymous []⟩).1.files =
        HoardV2.Anonymous pile ∧
      pile.deleted "file_1" = true ∧
      pile.deleted "" = false := by
  refine ⟨_, rfl, rfl, rfl⟩

/-! ### The pair enumerator in general: machine = traversal, multiplicities -/

lemma mapGet_isSome_iff_mem {β : Type} (cs : List (String × β)) (n : String) :
    (mapGet cs n).isSome = true ↔ n ∈ cs.map Prod.fst := by
  induction cs with
  | nil => simp [mapGet]
  | cons kv rest ih =>
    rw [mapGet_cons]
    by_cases h : kv.1 = n
    · rw [if_pos (by simp [h])]
      simp [h]
    · rw [if_neg (by simp [h]), List.map_cons]
      constructor
      · intro hs
        exact List.mem_cons_of_mem _ (ih.mp hs)
      · intro hm
        rcases List.mem_cons.mp hm with hm | hm
        · exact absurd hm.symm h
        · exact ih.mpr hm

lemma findNode_append (rel : List String) (n : String) (t : FsNode) :
    findNode (rel ++ [n]) t = childAt (findNode rel t) n := by
  induction rel generalizing t with
  | nil =>
    cases t with
    | file => rfl
    | dir cs =>
      show (match mapGet cs n with
        | some child => findNode [] child
        | none => none) = mapGet cs n
      cases mapGet cs n with
      | none => rfl
      | some ch => rfl
  | cons c rest ih =>
    cases t with
    | file => rfl
    | dir cs =>
      show (match mapGet cs c with
        | some child => findNode (rest ++ [n]) child
        | none => none) =
        childAt (match mapGet cs c with
          | some child => findNode rest child
          | none => none) n
      cases mapGet cs c with
      | none => rfl
      | some ch => exact ih ch

lemma afChildNames_mem (t : FsNode) (q : List String) (n : String) :
    n ∈ afChildNames t q ↔ (findNode (q ++ [n]) t).isSome = true := by
  rw [findNode_append]
  unfold afChildNames childAt
  rcases h : findNode q t with _ | node
  · simp
  · cases node with
    | file => simp
    | dir cs =>
      show n ∈ cs.map (fun kv => kv.1) ↔ (mapGet cs n).isSome = true
      exact (mapGet_isSome_iff_mem cs n).symm

lemma nodeSize_mem_le (cs : List (String × FsNode)) (kv : String × FsNode)
    (h : kv ∈ cs) : nodeSize kv.2 ≤ entriesSize cs := by
  induction cs with
  | nil => simp at h
  | cons kv0 rest ih =>
    rcases List.mem_cons.mp h with rfl | h2
    · simp only [entriesSize]
      exact Nat.le_add_right _ _
    · have := ih h2
      simp only [entriesSize]
      omega

lemma childAt_size (t : Option FsNode) (n : String) (ch : FsNode)
    (h : childAt t n = some ch) : nodeSize ch < optSize t := by
  rcases t with _ | node
  · simp [childAt] at h
  · cases node with
    | file => simp [childAt] at h
    | dir cs =>
      simp only [childAt] at h
      have hfind : ∃ kv ∈ cs, kv.2 = ch := by
        unfold mapGet at h
        rcases hf : cs.find? (fun kv => kv.1 == n) with _ | kv
        · rw [hf] at h
          simp at h
        · rw [hf] at h
          simp only [Option.map_some'] at h
          exact ⟨kv, List.mem_of_find?_eq_some hf, Option.some.inj h⟩
      rcases hfind with ⟨kv, hmem, rfl⟩
      have h1 : nodeSize kv.2 ≤ entriesSize cs := nodeSize_mem_le cs kv hmem
      show nodeSize kv.2 < optSize (some (FsNode.dir cs))
      simp only [optSize, nodeSize]
      omega

lemma optSize_child (t : FsNode) (rel : List String) (n : String) :
    optSize (findNode (rel ++ [n]) t) ≤ optSize (findNode rel t) ∧
    ((findNode (rel ++ [n]) t).isSome = true →
      optSize (findNode (rel ++ [n]) t) < optSize (findNode rel t)) := by
  rw [findNode_append]
  rcases hc : childAt (findNode rel t) n with _ | ch
  · constructor
    · show optSize none ≤ _
      simp [optSize]
    · intro hs
      simp at hs
  · have hlt := childAt_size _ _ _ hc
    constructor
    · exact Nat.le_of_lt (by simpa [optSize] using hlt)
    · intro _
      simpa [optSize] using hlt

lemma afSize_child_lt (R : AFRoot) (rel : List String) (n : String)
    (hdir : afIsDir ⟨R, rel ++ [n]⟩ = true) :
    afSize R (rel ++ [n]) < afSize R rel := by
  have hpres : (findNode (rel ++ [n]) R.sys).isSome = true ∨
      (findNode (rel ++ [n]) R.hoard).isSome = true := by
    rcases h1 : findNode (rel ++ [n]) R.sys with _ | v1
    · rcases h2 : findNode (rel ++ [n]) R.hoard with _ | v2
      · exfalso
        have : afIsDir ⟨R, rel ++ [n]⟩ = false := by
          simp [afIsDir, h1, h2]
        rw [this] at hdir
        exact absurd hdir (by simp)
      · right
        rfl
    · left
      rfl
  have hs := optSize_child R.sys rel n
  have hh := optSize_child R.hoard rel n
  unfold afSize
  rcases hpres with hp | hp
  · have := hs.2 hp
    have := hh.1
    omega
  · have := hh.2 hp
    have := hs.1
    omega

lemma afRun_nil (k : Nat) (c : Option AFItem) :
    afRun k ⟨[], [], [], c⟩ = [] := by
  cases k with
  | zero => rfl
  | succ k => rfl

lemma afRun_step_sys (fuel : Nat) (R : AFRoot) (rel : List String) (n : String)
    (rest l2 : List String) (stack : List AFItem) :
    afRun (fuel + 1) ⟨stack, n :: rest, l2, some ⟨R, rel⟩⟩ =
      if afKeep ⟨R, rel ++ [n]⟩ = true then
        if afIsFile ⟨R, rel ++ [n]⟩ = true then
          ⟨R, rel ++ [n]⟩ :: afRun fuel ⟨stack, rest, l2, some ⟨R, rel⟩⟩
        else if afIsDir ⟨R, rel ++ [n]⟩ = true then
          afRun fuel ⟨⟨R, rel ++ [n]⟩ :: stack, rest, l2, some ⟨R, rel⟩⟩
        else afRun fuel ⟨stack, rest, l2, some ⟨R, rel⟩⟩
      else afRun fuel ⟨stack, rest, l2, some ⟨R, rel⟩⟩ := rfl

lemma afRun_step_hoard (fuel : Nat) (R : AFRoot) (rel : List String)
    (n : String) (rest : List String) (stack : List AFItem) :
    afRun (fuel + 1) ⟨stack, [], n :: rest, some ⟨R, rel⟩⟩ =
      if afKeep ⟨R, rel ++ [n]⟩ = true then
        if afIsFile ⟨R, rel ++ [n]⟩ = true then
          ⟨R, rel ++ [n]⟩ :: afRun fuel ⟨stack, [], rest, some ⟨R, rel⟩⟩
        else if afIsDir ⟨R, rel ++ [n]⟩ = true then
          afRun fuel ⟨⟨R, rel ++ [n]⟩ :: stack, [], rest, some ⟨R, rel⟩⟩
        else afRun fuel ⟨stack, [], rest, some ⟨R, rel⟩⟩
      else afRun fuel ⟨stack, [], rest, some ⟨R, rel⟩⟩ := rfl

lemma afRun_step_pop (fuel : Nat) (R : AFRoot) (rel : List String)
    (stack : List AFItem) (c : Option AFItem) :
    afRun (fuel + 1) ⟨⟨R, rel⟩ :: stack, [], [], c⟩ =
      if afKeep ⟨R, rel⟩ = true then
        if afIsFile ⟨R, rel⟩ = true then
          ⟨R, rel⟩ :: afRun fuel ⟨stack, [], [], c⟩
        else if afIsDir ⟨R, rel⟩ = true then
          afRun fuel ⟨stack, afChildNames R.sys rel, afChildNames R.hoard rel,
            some ⟨R, rel⟩⟩
        else afRun fuel ⟨stack, [], [], c⟩
      else afRun fuel ⟨stack, [], [], c⟩ := rfl

lemma afRun_current :
    ∀ (k : Nat) (stack : List AFItem) (c cx : Option AFItem),
      afRun k ⟨stack, [], [], c⟩ = afRun k ⟨stack, [], [], cx⟩ := by
  intro k
  induction k with
  | zero => intro stack c cx; rfl
  | succ k ih =>
    intro stack c cx
    cases stack with
    | nil => rfl
    | cons item st =>
      rcases item with ⟨R, rel⟩
      rw [afRun_step_pop, afRun_step_pop]
      by_cases h1 : afKeep ⟨R, rel⟩ = true
      · rw [if_pos h1, if_pos h1]
        by_cases h2 : afIsFile ⟨R, rel⟩ = true
        · rw [if_pos h2, if_pos h2, ih st c cx]
        · rw [if_neg h2, if_neg h2]
          by_cases h3 : afIsDir ⟨R, rel⟩ = true
          · rw [if_pos h3, if_pos h3]
          · rw [if_neg h3, if_neg h3, ih st c cx]
      · rw [if_neg h1, if_neg h1, ih st c cx]

lemma afRun_drain_hoard (R : AFRoot) (rel : List String) :
    ∀ (l2 : List String) (k : Nat) (stack : List AFItem),
      afRun (l2.length + k) ⟨stack, [], l2, some ⟨R, rel⟩⟩ =
        ((l2.filter (fun n => fileStep R (rel ++ [n]))).map
          (fun n => (⟨R, rel ++ [n]⟩ : AFItem))) ++
        afRun k ⟨((l2.filter (fun n => dirStep R (rel ++ [n]))).reverse.map
            (fun n => (⟨R, rel ++ [n]⟩ : AFItem))) ++ stack, [], [],
          some ⟨R, rel⟩⟩ := by
  intro l2
  induction l2 with
  | nil =>
    intro k stack
    simp
  | cons n rest ih =>
    intro k stack
    rw [List.length_cons]
    have hfl : rest.length + 1 + k = rest.length + k + 1 := by omega
    rw [hfl, afRun_step_hoard]
    by_cases hf : afIsFile ⟨R, rel ++ [n]⟩ = true
    · by_cases hk : R.keep (rel ++ [n]) = true
      · have hkeep : afKeep ⟨R, rel ++ [n]⟩ = true := by
          simp [afKeep, hf, hk]
        have hfs : fileStep R (rel ++ [n]) = true := by simp [fileStep, hf, hk]
        have hds : dirStep R (rel ++ [n]) = false := by simp [dirStep, hf]
        rw [if_pos hkeep, if_pos hf, ih k stack,
          @List.filter_cons_of_pos _ (fun m => fileStep R (rel ++ [m])) n rest hfs,
          List.map_cons,
          @List.filter_cons_of_neg _ (fun m => dirStep R (rel ++ [m])) n rest
            (by simp [hds])]
        rfl
      · have hkeep : afKeep ⟨R, rel ++ [n]⟩ = false := by
          simp [afKeep, hk]
        have hfs : fileStep R (rel ++ [n]) = false := by simp [fileStep, hk]
        have hds : dirStep R (rel ++ [n]) = false := by simp [dirStep, hk]
        rw [if_neg (by simp [hkeep]), ih k stack,
          @List.filter_cons_of_neg _ (fun m => fileStep R (rel ++ [m])) n rest
            (by simp [hfs]),
          @List.filter_cons_of_neg _ (fun m => dirStep R (rel ++ [m])) n rest
            (by simp [hds])]
    · by_cases hd : afIsDir ⟨R, rel ++ [n]⟩ = true
      · by_cases hk : R.keep (rel ++ [n]) = true
        · have hkeep : afKeep ⟨R, rel ++ [n]⟩ = true := by
            simp [afKeep, hd, hk]
          have hfs : fileStep R (rel ++ [n]) = false := by simp [fileStep, hf]
          have hds : dirStep R (rel ++ [n]) = true := by
            simp [dirStep, hf, hd, hk]
          rw [if_pos hkeep, if_neg hf, if_pos hd,
            ih k (⟨R, rel ++ [n]⟩ :: stack),
            @List.filter_cons_of_neg _ (fun m => fileStep R (rel ++ [m])) n rest
              (by simp [hfs]),
            @List.filter_cons_of_pos _ (fun m => dirStep R (rel ++ [m])) n rest hds,
            List.reverse_cons, List.map_append, List.append_assoc]
          rfl
        · have hkeep : afKeep ⟨R, rel ++ [n]⟩ = false := by
            simp [afKeep, hk]
          have hfs : fileStep R (rel ++ [n]) = false := by simp [fileStep, hk]
          have hds : dirStep R (rel ++ [n]) = false := by simp [dirStep, hk]
          rw [if_neg (by simp [hkeep]), ih k stack,
            @List.filter_cons_of_neg _ (fun m => fileStep R (rel ++ [m])) n rest
              (by simp [hfs]),
            @List.filter_cons_of_neg _ (fun m => dirStep R (rel ++ [m])) n rest
              (by simp [hds])]
      · have hkeep : afKeep ⟨R, rel ++ [n]⟩ = false := by
          simp [afKeep, hf, hd]
        have hfs : fileStep R (rel ++ [n]) = false := by simp [fileStep, hf]
        have hds : dirStep R (rel ++ [n]) = false := by simp [dirStep, hd]
        rw [if_neg (by simp [hkeep]), ih k stack,
          @List.filter_cons_of_neg _ (fun m => fileStep R (rel ++ [m])) n rest
            (by simp [hfs]),
          @List.filter_cons_of_neg _ (fun m => dirStep R (rel ++ [m])) n rest
            (by simp [hds])]

lemma afRun_drain (R : AFRoot) (rel : List String) :
    ∀ (l1 l2 : List String) (k : Nat) (stack : List AFItem),
      afRun (l1.length + l2.length + k) ⟨stack, l1, l2, some ⟨R, rel⟩⟩ =
        (((l1 ++ l2).filter (fun n => fileStep R (rel ++ [n]))).map
          (fun n => (⟨R, rel ++ [n]⟩ : AFItem))) ++
        afRun k ⟨(((l1 ++ l2).filter (fun n => dirStep R (rel ++ [n]))).reverse.map
            (fun n => (⟨R, rel ++ [n]⟩ : AFItem))) ++ stack, [], [],
          some ⟨R, rel⟩⟩ := by
  intro l1
  induction l1 with
  | nil =>
    intro l2 k stack
    have h0 : ([] : List String).length + l2.length + k = l2.length + k := by
      simp
    rw [h0, afRun_drain_hoard R rel l2 k stack]
    rfl
  | cons n rest ih =>
    intro l2 k stack
    rw [List.length_cons, List.cons_append]
    have hfl : rest.length + 1 + l2.length + k = rest.length + l2.length + k + 1 := by
      omega
    rw [hfl, afRun_step_sys]
    by_cases hf : afIsFile ⟨R, rel ++ [n]⟩ = true
    · by_cases hk : R.keep (rel ++ [n]) = true
      · have hkeep : afKeep ⟨R, rel ++ [n]⟩ = true := by
          simp [afKeep, hf, hk]
        have hfs : fileStep R (rel ++ [n]) = true := by simp [fileStep, hf, hk]
        have hds : dirStep R (rel ++ [n]) = false := by simp [dirStep, hf]
        rw [if_pos hkeep, if_pos hf, ih l2 k stack,
          @List.filter_cons_of_pos _ (fun m => fileStep R (rel ++ [m])) n
            (rest ++ l2) hfs,
          List.map_cons,
          @List.filter_cons_of_neg _ (fun m => dirStep R (rel ++ [m])) n
            (rest ++ l2) (by simp [hds])]
        rfl
      · have hkeep : afKeep ⟨R, rel ++ [n]⟩ = false := by
          simp [afKeep, hk]
        have hfs : fileStep R (rel ++ [n]) = false := by simp [fileStep, hk]
        have hds : dirStep R (rel ++ [n]) = false := by simp [dirStep, hk]
        rw [if_neg (by simp [hkeep]), ih l2 k stack,
          @List.filter_cons_of_neg _ (fun m => fileStep R (rel ++ [m])) n
            (rest ++ l2) (by simp [hfs]),
          @List.filter_cons_of_neg _ (fun m => dirStep R (rel ++ [m])) n
            (rest ++ l2) (by simp [hds])]
    · by_cases hd : afIsDir ⟨R, rel ++ [n]⟩ = true
      · by_cases hk : R.keep (rel ++ [n]) = true
        · have hkeep : afKeep ⟨R, rel ++ [n]⟩ = true := by
            simp [afKeep, hd, hk]
          have hfs : fileStep R (rel ++ [n]) = false := by simp [fileStep, hf]
          have hds : dirStep R (rel ++ [n]) = true := by
            simp [dirStep, hf, hd, hk]
          rw [if_pos hkeep, if_neg hf, if_pos hd,
            ih l2 k (⟨R, rel ++ [n]⟩ :: stack),
            @List.filter_cons_of_neg _ (fun m => fileStep R (rel ++ [m])) n
              (rest ++ l2) (by simp [hfs]),
            @List.filter_cons_of_pos _ (fun m => dirStep R (rel ++ [m])) n
              (rest ++ l2) hds,
            List.reverse_cons, List.map_append, List.append_assoc]
          rfl
        · have hkeep : afKeep ⟨R, rel ++ [n]⟩ = false := by
            simp [afKeep, hk]
          have hfs : fileStep R (rel ++ [n]) = false := by simp [fileStep, hk]
          have hds : dirStep R (rel ++ [n]) = false := by simp [dirStep, hk]
          rw [if_neg (by simp [hkeep]), ih l2 k stack,
            @List.filter_cons_of_neg _ (fun m => fileStep R (rel ++ [m])) n
              (rest ++ l2) (by simp [hfs]),
            @List.filter_cons_of_neg _ (fun m => dirStep R (rel ++ [m])) n
              (rest ++ l2) (by simp [hds])]
      · have hkeep : afKeep ⟨R, rel ++ [n]⟩ = false := by
          simp [afKeep, hf, hd]
        have hfs : fileStep R (rel ++ [n]) = false := by simp [fileStep, hf]
        have hds : dirStep R (rel ++ [n]) = false := by simp [dirStep, hd]
        rw [if_neg (by simp [hkeep]), ih l2 k stack,
          @List.filter_cons_of_neg _ (fun m => fileStep R (rel ++ [m])) n
            (rest ++ l2) (by simp [hfs]),
          @List.filter_cons_of_neg _ (fun m => dirStep R (rel ++ [m])) n
            (rest ++ l2) (by simp [hds])]

lemma afRun_sim (R : AFRoot) :
    ∀ (d : Nat) (rel : List String), afSize R rel < d →
      ∀ (k : Nat) (stack : List AFItem) (c : Option AFItem),
        afRun (pairCost R d rel + k) ⟨⟨R, rel⟩ :: stack, [], [], c⟩ =
          (pairYields R d rel).map (fun p => (⟨R, p⟩ : AFItem)) ++
          afRun k ⟨stack, [], [], c⟩ := by
  intro d
  induction d with
  | zero => intro rel h; exact absurd h (Nat.not_lt_zero _)
  | succ d ih =>
    intro rel hsize k stack c
    by_cases h1 : afKeep ⟨R, rel⟩ = true
    · by_cases h2 : afIsFile ⟨R, rel⟩ = true
      · have hc : pairCost R (d + 1) rel = 1 := by
          simp only [pairCost]
          rw [if_pos h1, if_pos h2]
        have hy : pairYields R (d + 1) rel = [rel] := by
          simp only [pairYields]
          rw [if_pos h1, if_pos h2]
        rw [hc, hy, Nat.add_comm 1 k, afRun_step_pop, if_pos h1, if_pos h2]
        rfl
      · by_cases h3 : afIsDir ⟨R, rel⟩ = true
        · have hc : pairCost R (d + 1) rel =
              1 + ((afChildNames R.sys rel).length +
                (afChildNames R.hoard rel).length) +
              ((afDirs R rel).map (fun n => pairCost R d (rel ++ [n]))).sum := by
            simp only [pairCost]
            rw [if_pos h1, if_neg h2, if_pos h3]
          have hy : pairYields R (d + 1) rel =
              (afFiles R rel).map (fun n => rel ++ [n]) ++
              ((afDirs R rel).reverse.map
                (fun n => pairYields R d (rel ++ [n]))).flatten := by
            simp only [pairYields]
            rw [if_pos h1, if_neg h2, if_pos h3]
          have inner : ∀ (dl : List String),
              (∀ m ∈ dl, dirStep R (rel ++ [m]) = true) →
              ∀ (kx : Nat) (stx : List AFItem) (cx : Option AFItem),
                afRun ((dl.map (fun n => pairCost R d (rel ++ [n]))).sum + kx)
                    ⟨dl.map (fun n => (⟨R, rel ++ [n]⟩ : AFItem)) ++ stx,
                      [], [], cx⟩ =
                  ((dl.map (fun n => pairYields R d (rel ++ [n]))).flatten).map
                    (fun p => (⟨R, p⟩ : AFItem)) ++
                  afRun kx ⟨stx, [], [], cx⟩ := by
            intro dl
            induction dl with
            | nil =>
              intro _ kx stx cx
              have h0 : ((([] : List String).map
                  (fun n => pairCost R d (rel ++ [n]))).sum) + kx = kx := by
                simp
              rw [h0]
              rfl
            | cons m dml ihd =>
              intro hall kx stx cx
              have hm := hall m (List.mem_cons_self _ _)
              have hm' : afIsFile ⟨R, rel ++ [m]⟩ = false ∧
                  afIsDir ⟨R, rel ++ [m]⟩ = true ∧
                  R.keep (rel ++ [m]) = true := by
                simpa [dirStep, Bool.and_eq_true] using hm
              have hsz : afSize R (rel ++ [m]) < d := by
                have := afSize_child_lt R rel m hm'.2.1
                omega
              rw [List.map_cons, List.sum_cons, List.map_cons, List.cons_append]
              have hfl : pairCost R d (rel ++ [m]) +
                  ((dml.map (fun n => pairCost R d (rel ++ [n]))).sum) + kx =
                  pairCost R d (rel ++ [m]) +
                  (((dml.map (fun n => pairCost R d (rel ++ [n]))).sum) + kx) := by
                omega
              rw [hfl,
                ih (rel ++ [m]) hsz
                  (((dml.map (fun n => pairCost R d (rel ++ [n]))).sum) + kx)
                  (dml.map (fun n => (⟨R, rel ++ [n]⟩ : AFItem)) ++ stx) cx,
                ihd (fun x hx => hall x (List.mem_cons_of_mem _ hx)) kx stx cx,
                List.map_cons, List.flatten_cons, List.map_append,
                List.append_assoc]
          have hpush : ∀ m ∈ (afDirs R rel).reverse,
              dirStep R (rel ++ [m]) = true := by
            intro m hmem
            have hmem2 := List.mem_reverse.mp hmem
            have := (List.mem_filter.mp hmem2).2
            simpa using this
          have hsum : (((afDirs R rel).reverse.map
              (fun n => pairCost R d (rel ++ [n]))).sum) =
              ((afDirs R rel).map (fun n => pairCost R d (rel ++ [n]))).sum := by
            rw [List.map_reverse, List.sum_reverse]
          rw [hc, hy]
          have hfuel : 1 + ((afChildNames R.sys rel).length +
                (afChildNames R.hoard rel).length) +
              ((afDirs R rel).map (fun n => pairCost R d (rel ++ [n]))).sum + k =
              ((afChildNames R.sys rel).length + (afChildNames R.hoard rel).length +
                (((afDirs R rel).map (fun n => pairCost R d (rel ++ [n]))).sum + k))
                + 1 := by
            omega
          rw [hfuel, afRun_step_pop, if_pos h1, if_neg h2, if_pos h3,
            afRun_drain R rel (afChildNames R.sys rel) (afChildNames R.hoard rel)
              (((afDirs R rel).map (fun n => pairCost R d (rel ++ [n]))).sum + k)
              stack]
          rw [show ((afChildNames R.sys rel ++ afChildNames R.hoard rel).filter
              (fun n => fileStep R (rel ++ [n]))) = afFiles R rel from rfl,
            show ((afChildNames R.sys rel ++ afChildNames R.hoard rel).filter
              (fun n => dirStep R (rel ++ [n]))) = afDirs R rel from rfl]
          rw [show ((afDirs R rel).map (fun n => pairCost R d (rel ++ [n]))).sum + k
              = (((afDirs R rel).reverse.map
                  (fun n => pairCost R d (rel ++ [n]))).sum) + k from by rw [hsum]]
          rw [inner ((afDirs R rel).reverse) hpush k stack (some ⟨R, rel⟩),
            afRun_current k stack (some ⟨R, rel⟩) c, List.map_append,
            List.append_assoc, List.map_map]
          rfl
        · have hc : pairCost R (d + 1) rel = 1 := by
            simp only [pairCost]
            rw [if_pos h1, if_neg h2, if_neg h3]
          have hy : pairYields R (d + 1) rel = [] := by
            simp only [pairYields]
            rw [if_pos h1, if_neg h2, if_neg h3]
          rw [hc, hy, Nat.add_comm 1 k, afRun_step_pop, if_pos h1, if_neg h2,
            if_neg h3]
          rfl
    · have hc : pairCost R (d + 1) rel = 1 := by
        simp only [pairCost]
        rw [if_neg h1]
      have hy : pairYields R (d + 1) rel = [] := by
        simp only [pairYields]
        rw [if_neg h1]
      rw [hc, hy, Nat.add_comm 1 k, afRun_step_pop, if_neg h1]
      rfl

lemma pairYields_extend (R : AFRoot) :
    ∀ (d : Nat) (rel y : List String),
      y ∈ pairYields R d rel → ∃ t, y = rel ++ t := by
  intro d
  induction d with
  | zero => intro rel y h; simp [pairYields] at h
  | succ d ih =>
    intro rel y h
    simp only [pairYields] at h
    by_cases h1 : afKeep ⟨R, rel⟩ = true
    · rw [if_pos h1] at h
      by_cases h2 : afIsFile ⟨R, rel⟩ = true
      · rw [if_pos h2] at h
        have := List.mem_singleton.mp h
        exact ⟨[], by simp [this]⟩
      · rw [if_neg h2] at h
        by_cases h3 : afIsDir ⟨R, rel⟩ = true
        · rw [if_pos h3] at h
          rcases List.mem_append.mp h with h | h
          · rcases List.mem_map.mp h with ⟨n, _, rfl⟩
            exact ⟨[n], rfl⟩
          · rcases List.mem_flatten.mp h with ⟨l, hl, hy⟩
            rcases List.mem_map.mp hl with ⟨n, _, rfl⟩
            rcases ih (rel ++ [n]) y hy with ⟨t, rfl⟩
            exact ⟨n :: t, by simp⟩
        · rw [if_neg h3] at h
          simp at h
    · rw [if_neg h1] at h
      simp at h

lemma count_map_rel (rel : List String) (l : List String) (n : String) :
    (l.map (fun m => rel ++ [m])).count (rel ++ [n]) = l.count n := by
  induction l with
  | nil => rfl
  | cons a t ih =>
    rw [List.map_cons, List.count_cons, List.count_cons, ih]
    by_cases h : a = n
    · subst h
      simp
    · have h1 : ((rel ++ [a]) == (rel ++ [n])) = false := by
        simp only [beq_eq_false_iff_ne, ne_eq]
        intro hc
        exact h (by simpa using List.append_cancel_left hc)
      have h2 : (a == n) = false := by simp [h]
      rw [h1, h2]

lemma count_filter_eq (l : List String) (p : String → Bool) (n : String) :
    (l.filter p).count n = if p n = true then l.count n else 0 := by
  by_cases hp : p n = true
  · rw [if_pos hp]
    exact List.count_filter hp
  · rw [if_neg hp]
    refine List.count_eq_zero.mpr ?_
    intro hc
    exact hp ((List.mem_filter.mp hc).2)

lemma count_flatten_eq (ll : List (List (List String))) (p : List String) :
    ll.flatten.count p = (ll.map (fun l => l.count p)).sum := by
  induction ll with
  | nil => rfl
  | cons l rest ih =>
    rw [List.flatten_cons, List.count_append, List.map_cons, List.sum_cons, ih]

lemma sum_map_eq_count (dl : List String) (n : String) (g : String → Nat)
    (h : ∀ m ∈ dl, m ≠ n → g m = 0) :
    (dl.map g).sum = dl.count n * g n := by
  induction dl with
  | nil => simp
  | cons a rest ihl =>
    rw [List.map_cons, List.sum_cons,
      ihl (fun m hm => h m (List.mem_cons_of_mem _ hm))]
    by_cases ha : a = n
    · subst ha
      rw [List.count_cons_self, Nat.succ_mul]
      exact Nat.add_comm _ _
    · rw [List.count_cons_of_ne (fun hc => ha hc.symm),
        h a (List.mem_cons_self _ _) ha]
      exact Nat.zero_add _

lemma bool_not_true {b : Bool} (h : ¬ b = true) : b = false := by
  cases b with
  | false => rfl
  | true => exact absurd rfl h

lemma pairYields_count (R : AFRoot) :
    ∀ (d : Nat) (rel q : List String), afSize R rel < d →
      (pairYields R d rel).count (rel ++ q) =
        if (chainTo R rel q && fileStep R (rel ++ q)) = true
        then prodOcc R rel q else 0 := by
  intro d
  induction d with
  | zero => intro rel q h; exact absurd h (Nat.not_lt_zero _)
  | succ d ih =>
    intro rel q hsize
    by_cases h1 : afKeep ⟨R, rel⟩ = true
    · have hk : R.keep rel = true := by
        have h1' := h1
        simp [afKeep, Bool.and_eq_true] at h1'
        exact h1'.2
      by_cases h2 : afIsFile ⟨R, rel⟩ = true
      · have hy : pairYields R (d + 1) rel = [rel] := by
          simp only [pairYields]
          rw [if_pos h1, if_pos h2]
        rw [hy]
        cases q with
        | nil =>
          have hcond : (chainTo R rel [] && fileStep R (rel ++ [])) = true := by
            simp [chainTo, fileStep, h2, hk]
          rw [if_pos hcond]
          simp [prodOcc, List.count_singleton]
        | cons n q' =>
          have hchain : chainTo R rel (n :: q') = false := by
            simp [chainTo, dirStep, h2]
          have hcnt : ([rel] : List (List String)).count (rel ++ n :: q') = 0 := by
            refine List.count_eq_zero.mpr ?_
            intro hc
            have hc2 := List.mem_singleton.mp hc
            have hlen := congrArg List.length hc2
            simp at hlen
          rw [hcnt, hchain]
          simp
      · by_cases h3 : afIsDir ⟨R, rel⟩ = true
        · have hy : pairYields R (d + 1) rel =
              (afFiles R rel).map (fun n => rel ++ [n]) ++
              ((afDirs R rel).reverse.map
                (fun n => pairYields R d (rel ++ [n]))).flatten := by
            simp only [pairYields]
            rw [if_pos h1, if_neg h2, if_pos h3]
          have hds0 : dirStep R rel = true := by
            simp [dirStep, h2, h3, hk]
          rw [hy, List.count_append]
          cases q with
          | nil =>
            have hF : ((afFiles R rel).map (fun n => rel ++ [n])).count
                (rel ++ []) = 0 := by
              refine List.count_eq_zero.mpr ?_
              intro hc
              rcases List.mem_map.mp hc with ⟨n, _, hc2⟩
              have hlen := congrArg List.length hc2
              simp at hlen
            have hD : (((afDirs R rel).reverse.map
                (fun n => pairYields R d (rel ++ [n]))).flatten).count
                (rel ++ []) = 0 := by
              refine List.count_eq_zero.mpr ?_
              intro hc
              rcases List.mem_flatten.mp hc with ⟨l, hl, hy2⟩
              rcases List.mem_map.mp hl with ⟨n, _, rfl⟩
              rcases pairYields_extend R d (rel ++ [n]) _ hy2 with ⟨t, hc2⟩
              have hlen := congrArg List.length hc2
              simp at hlen
            have hfs : fileStep R rel = false := by
              simp [fileStep, h2]
            rw [hF, hD]
            simp [hfs]
          | cons n q' =>
            have hszc : dirStep R (rel ++ [n]) = true →
                afSize R (rel ++ [n]) < d := by
              intro hds
              have hds' : afIsDir ⟨R, rel ++ [n]⟩ = true := by
                simp [dirStep, Bool.and_eq_true] at hds
                exact hds.2.1
              have := afSize_child_lt R rel n hds'
              omega
            have hFgen : ((afFiles R rel).map (fun m => rel ++ [m])).count
                (rel ++ n :: q') =
                if q' = [] then
                  (if fileStep R (rel ++ [n]) = true then occCount R rel n
                   else 0)
                else 0 := by
              cases q' with
              | nil =>
                rw [if_pos rfl, count_map_rel]
                unfold afFiles
                rw [count_filter_eq]
                by_cases hfs : fileStep R (rel ++ [n]) = true
                · rw [if_pos (show (fun m => fileStep R (rel ++ [m])) n = true
                      from hfs), if_pos hfs, List.count_append]
                  rfl
                · rw [if_neg (show ¬ (fun m => fileStep R (rel ++ [m])) n = true
                      from hfs), if_neg hfs]
              | cons m2 qr =>
                rw [if_neg (by simp)]
                refine List.count_eq_zero.mpr ?_
                intro hc
                rcases List.mem_map.mp hc with ⟨x, _, hc2⟩
                have hc3 := List.append_cancel_left hc2
                have hlen := congrArg List.length hc3
                simp at hlen
            have hDgen : (((afDirs R rel).reverse.map
                (fun m => pairYields R d (rel ++ [m]))).flatten).count
                (rel ++ n :: q') =
                (if dirStep R (rel ++ [n]) = true then occCount R rel n else 0) *
                ((pairYields R d (rel ++ [n])).count (rel ++ n :: q')) := by
              rw [count_flatten_eq, List.map_map]
              have hzero : ∀ m ∈ (afDirs R rel).reverse, m ≠ n →
                  ((fun l => l.count (rel ++ n :: q')) ∘
                    fun m => pairYields R d (rel ++ [m])) m = 0 := by
                intro m _ hmn
                refine List.count_eq_zero.mpr ?_
                intro hc
                rcases pairYields_extend R d (rel ++ [m]) _ hc with ⟨t, ht⟩
                have ht2 : rel ++ n :: q' = rel ++ m :: t := by simpa using ht
                have ht3 := List.append_cancel_left ht2
                injection ht3 with hh _
                exact hmn hh.symm
              rw [sum_map_eq_count ((afDirs R rel).reverse) n _ hzero,
                List.count_reverse]
              show (afDirs R rel).count n *
                  (pairYields R d (rel ++ [n])).count (rel ++ n :: q') = _
              unfold afDirs
              rw [count_filter_eq]
              by_cases hds : dirStep R (rel ++ [n]) = true
              · rw [if_pos (show (fun m => dirStep R (rel ++ [m])) n = true
                    from hds), if_pos hds, List.count_append]
                rfl
              · rw [if_neg (show ¬ (fun m => dirStep R (rel ++ [m])) n = true
                    from hds), if_neg hds]
            have hchain : chainTo R rel (n :: q') =
                chainTo R (rel ++ [n]) q' := by
              simp [chainTo, hds0]
            have hprod : prodOcc R rel (n :: q') =
                occCount R rel n * prodOcc R (rel ++ [n]) q' := rfl
            rw [hFgen, hDgen, hchain, hprod]
            cases q' with
            | nil =>
              rw [if_pos rfl]
              by_cases hfs : fileStep R (rel ++ [n]) = true
              · have hif : afIsFile ⟨R, rel ++ [n]⟩ = true := by
                  simp [fileStep, Bool.and_eq_true] at hfs
                  exact hfs.1
                have hds : dirStep R (rel ++ [n]) = false := by
                  simp [dirStep, hif]
                have hcond : (chainTo R (rel ++ [n]) ([] : List String) &&
                    fileStep R (rel ++ [n])) = true := by
                  simp [chainTo, hfs]
                rw [if_pos hfs, hds, if_pos hcond]
                simp [prodOcc]
              · have hfs' : fileStep R (rel ++ [n]) = false := bool_not_true hfs
                have hcond : ¬ (chainTo R (rel ++ [n]) ([] : List String) &&
                    fileStep R (rel ++ [n])) = true := by
                  simp [chainTo, hfs']
                rw [if_neg hfs, if_neg hcond]
                by_cases hds : dirStep R (rel ++ [n]) = true
                · have hchild := ih (rel ++ [n]) [] (hszc hds)
                  have hchild2 : (pairYields R d (rel ++ [n])).count
                      (rel ++ [n]) = 0 := by
                    simpa [chainTo, hfs'] using hchild
                  rw [if_pos hds, hchild2]
                  simp
                · rw [if_neg hds]
                  simp
            | cons m2 qr =>
              rw [if_neg (by simp)]
              by_cases hcond : (chainTo R (rel ++ [n]) (m2 :: qr) &&
                  fileStep R (rel ++ n :: m2 :: qr)) = true
              · have hds : dirStep R (rel ++ [n]) = true := by
                  have hc2 := hcond
                  simp only [Bool.and_eq_true] at hc2
                  have hc3 := hc2.1
                  simp only [chainTo, Bool.and_eq_true] at hc3
                  exact hc3.1
                have hchild : (pairYields R d (rel ++ [n])).count
                    (rel ++ n :: m2 :: qr) =
                    if (chainTo R (rel ++ [n]) (m2 :: qr) &&
                      fileStep R (rel ++ n :: m2 :: qr)) = true
                    then prodOcc R (rel ++ [n]) (m2 :: qr) else 0 := by
                  have := ih (rel ++ [n]) (m2 :: qr) (hszc hds)
                  simpa using this
                rw [if_pos hds, hchild, if_pos hcond, if_pos hcond]
                exact Nat.zero_add _
              · rw [if_neg hcond]
                by_cases hds : dirStep R (rel ++ [n]) = true
                · have hchild : (pairYields R d (rel ++ [n])).count
                      (rel ++ n :: m2 :: qr) =
                      if (chainTo R (rel ++ [n]) (m2 :: qr) &&
                        fileStep R (rel ++ n :: m2 :: qr)) = true
                      then prodOcc R (rel ++ [n]) (m2 :: qr) else 0 := by
                    have := ih (rel ++ [n]) (m2 :: qr) (hszc hds)
                    simpa using this
                  rw [if_pos hds, hchild, if_neg hcond]
                  simp
                · rw [if_neg hds]
                  simp
        · have hy : pairYields R (d + 1) rel = [] := by
            simp only [pairYields]
            rw [if_pos h1, if_neg h2, if_neg h3]
          rw [hy]
          cases q with
          | nil =>
            have hfs : fileStep R rel = false := by
              simp [fileStep, h2]
            simp [hfs]
          | cons n q' =>
            have hds : dirStep R rel = false := by simp [dirStep, h3]
            simp [chainTo, hds]
    · have hy : pairYields R (d + 1) rel = [] := by
        simp only [pairYields]
        rw [if_neg h1]
      rw [hy]
      have h1f : afKeep ⟨R, rel⟩ = false := bool_not_true h1
      cases q with
      | nil =>
        have hfs : fileStep R rel = false := by
          by_cases hf : afIsFile ⟨R, rel⟩ = true
          · have hkf : R.keep rel = false := by
              simp [afKeep, hf] at h1f
              exact h1f
            simp [fileStep, hkf]
          · simp [fileStep, bool_not_true hf]
        simp [hfs]
      | cons n q' =>
        have hds : dirStep R rel = false := by
          by_cases hf : afIsFile ⟨R, rel⟩ = true
          · simp [dirStep, hf]
          · by_cases hd : afIsDir ⟨R, rel⟩ = true
            · have hkf : R.keep rel = false := by
                simp [afKeep, hd, bool_not_true hf] at h1f
                exact h1f
              simp [dirStep, hkf]
            · simp [dirStep, bool_not_true hd]
        simp [chainTo, hds]

lemma occCount_pos (R : AFRoot) (q : List String) (n : String) :
    0 < occCount R q n ↔
      ((findNode (q ++ [n]) R.sys).isSome = true ∨
        (findNode (q ++ [n]) R.hoard).isSome = true) := by
  unfold occCount
  constructor
  · intro h
    by_cases hs : 0 < (afChildNames R.sys q).count n
    · exact Or.inl ((afChildNames_mem R.sys q n).mp (List.count_pos_iff.mp hs))
    · have hh : 0 < (afChildNames R.hoard q).count n := by omega
      exact Or.inr ((afChildNames_mem R.hoard q n).mp (List.count_pos_iff.mp hh))
  · intro h
    rcases h with h | h
    · have := List.count_pos_iff.mpr ((afChildNames_mem R.sys q n).mpr h)
      omega
    · have := List.count_pos_iff.mpr ((afChildNames_mem R.hoard q n).mpr h)
      omega

lemma prodOcc_pos (R : AFRoot) :
    ∀ (q rel : List String),
      0 < prodOcc R rel q ↔
        ∀ (j : Nat) (h : j < q.length),
          0 < occCount R (rel ++ q.take j) (q.get ⟨j, h⟩) := by
  intro q
  induction q with
  | nil =>
    intro rel
    simp [prodOcc]
  | cons n q' ih =>
    intro rel
    have hsplit : 0 < prodOcc R rel (n :: q') ↔
        0 < occCount R rel n ∧ 0 < prodOcc R (rel ++ [n]) q' := by
      rw [show prodOcc R rel (n :: q') =
        occCount R rel n * prodOcc R (rel ++ [n]) q' from rfl]
      constructor
      · intro h
        constructor
        · rcases Nat.eq_zero_or_pos (occCount R rel n) with h0 | h0
          · rw [h0] at h
            simp at h
          · exact h0
        · rcases Nat.eq_zero_or_pos (prodOcc R (rel ++ [n]) q') with h0 | h0
          · rw [h0] at h
            simp at h
          · exact h0
      · intro h
        exact Nat.mul_pos h.1 h.2
    rw [hsplit, ih (rel ++ [n])]
    constructor
    · intro h j hj
      cases j with
      | zero => simpa using h.1
      | succ j =>
        have hj' : j < q'.length := by simpa using hj
        have := h.2 j hj'
        simpa using this
    · intro h
      constructor
      · have := h 0 (by simp)
        simpa using this
      · intro j hj
        have := h (j + 1) (by simpa using Nat.succ_lt_succ hj)
        simpa using this

/-- **C2 (amended).** For *every* root configuration and *every* filesystem
state (arbitrary nested trees on both sides), `AllFilesIter` is exactly
the depth-first traversal `pairYields`, and its per-path yield
multiplicity is the product, along the path, of the number of sides whose
directory listing holds each component (`prodOcc`/`occCount`).  Hence:
the set of yielded paths is exactly the filtered union — a path is
yielded iff it is a file on some side, kept, every proper prefix is a
kept directory that is a file on neither side (`chainTo`), and every
prefix exists on some side — but the claim's "exactly once" is false: a
file present on both sides is yielded once per side, and a directory
present on both sides is pushed and traversed twice, duplicating its
whole subtree (each both-side level doubles the multiplicity product).
The conjuncts state, in order: the machine/traversal equality; the
multiplicity formula; set-level union coverage; the multi-pile stack
concatenation; and a concrete evaluation in which a both-side directory
`d` is traversed twice, so its single-side file `f` is yielded twice. -/
theorem all_files_union_coverage :
    (∀ (R : AFRoot) (d : Nat), afSize R [] < d →
      afRun (pairCost R d [] + 1) ⟨[⟨R, []⟩], [], [], none⟩ =
        (pairYields R d []).map (fun p => (⟨R, p⟩ : AFItem))) ∧
    (∀ (R : AFRoot) (d : Nat) (p : List String), afSize R [] < d →
      ((afRun (pairCost R d [] + 1) ⟨[⟨R, []⟩], [], [], none⟩).map
          (fun i => i.rel)).count p =
        (if (chainTo R [] p && fileStep R p) = true then prodOcc R [] p
         else 0)) ∧
    (∀ (R : AFRoot) (d : Nat) (p : List String), afSize R [] < d →
      (p ∈ (afRun (pairCost R d [] + 1) ⟨[⟨R, []⟩], [], [], none⟩).map
          (fun i => i.rel) ↔
        (chainTo R [] p && fileStep R p) = true ∧
        ∀ (j : Nat), j < p.length →
          (findNode (p.take (j + 1)) R.sys).isSome = true ∨
            (findNode (p.take (j + 1)) R.hoard).isSome = true)) ∧
    (∀ (R1 R2 : AFRoot) (d : Nat), afSize R1 [] < d → afSize R2 [] < d →
      afRun (pairCost R1 d [] + (pairCost R2 d [] + 1))
          ⟨[⟨R1, []⟩, ⟨R2, []⟩], [], [], none⟩ =
        (pairYields R1 d []).map (fun p => (⟨R1, p⟩ : AFItem)) ++
        (pairYields R2 d []).map (fun p => (⟨R2, p⟩ : AFItem))) ∧
    ((afRun 10 ⟨[⟨⟨none, FsNode.dir [("d", FsNode.dir [("f", FsNode.file)])],
          FsNode.dir [("d", FsNode.dir [])], fun _ => true⟩, []⟩],
        [], [], none⟩).map (fun i => i.rel) = [["d", "f"], ["d", "f"]]) := by
  have hrun : ∀ (R : AFRoot) (d : Nat), afSize R [] < d →
      afRun (pairCost R d [] + 1) ⟨[⟨R, []⟩], [], [], none⟩ =
        (pairYields R d []).map (fun p => (⟨R, p⟩ : AFItem)) := by
    intro R d h
    rw [afRun_sim R d [] h 1 [] none, afRun_nil, List.append_nil]
  have hcount : ∀ (R : AFRoot) (d : Nat) (p : List String), afSize R [] < d →
      ((afRun (pairCost R d [] + 1) ⟨[⟨R, []⟩], [], [], none⟩).map
          (fun i => i.rel)).count p =
        (if (chainTo R [] p && fileStep R p) = true then prodOcc R [] p
         else 0) := by
    intro R d p h
    rw [hrun R d h, List.map_map]
    have hfuse : (pairYields R d []).map
        ((fun i => i.rel) ∘ (fun p => (⟨R, p⟩ : AFItem))) = pairYields R d [] :=
      List.map_id'' (fun p => rfl) _
    rw [hfuse]
    have := pairYields_count R d [] p h
    simpa using this
  refine ⟨hrun, hcount, ?_, ?_, ?_⟩
  · intro R d p h
    rw [← List.count_pos_iff, hcount R d p h]
    by_cases hcond : (chainTo R [] p && fileStep R p) = true
    · rw [if_pos hcond]
      constructor
      · intro hp
        refine ⟨hcond, ?_⟩
        have hpp := (prodOcc_pos R p []).mp hp
        intro j hj
        have hocc := hpp j hj
        rw [occCount_pos] at hocc
        have harg : (([] : List String) ++ p.take j) ++ [p.get ⟨j, hj⟩] =
            p.take (j + 1) := by
          rw [List.nil_append, ← List.concat_eq_append]
          exact List.take_concat_get p j hj
        rw [harg] at hocc
        exact hocc
      · intro hh
        rcases hh with ⟨_, hpre⟩
        rw [prodOcc_pos]
        intro j hj
        rw [occCount_pos]
        have harg : (([] : List String) ++ p.take j) ++ [p.get ⟨j, hj⟩] =
            p.take (j + 1) := by
          rw [List.nil_append, ← List.concat_eq_append]
          exact List.take_concat_get p j hj
        rw [harg]
        exact hpre j hj
    · rw [if_neg hcond]
      simp [hcond]
  · intro R1 R2 d h1 h2
    rw [afRun_sim R1 d [] h1 (pairCost R2 d [] + 1) [⟨R2, []⟩] none,
      afRun_sim R2 d [] h2 1 [] none, afRun_nil, List.append_nil]
  · decide

/-- **C2 counterexample.** The file `f` exists on both the system side and
the hoard side of an anonymous pile root (with no filters): `AllFilesIter`
yields the pair `(None, "f")` **twice** — once from the system-entries
pass and once from the hoard-entries pass — contradicting the claim's
"each distinct `(pile_name, relative_path)` yielded exactly once,
including paths that exist on both sides". -/
theorem all_files_duplicate_counterexample :
    ((afRun 10 ⟨[⟨⟨none, FsNode.dir [("f", FsNode.file)],
          FsNode.dir [("f", FsNode.file)], fun _ => true⟩, []⟩],
        [], [], none⟩).map (fun i => (i.root.pileName, i.rel)) =
      [((none : Option String), ["f"]), (none, ["f"])]) ∧
    ¬ ((afRun 10 ⟨[⟨⟨none, FsNode.dir [("f", FsNode.file)],
          FsNode.dir [("f", FsNode.file)], fun _ => true⟩, []⟩],
        [], [], none⟩).map (fun i => (i.root.pileName, i.rel))).Nodup := by
  refine ⟨by decide, by decide⟩

end SaveHoarder
